import Mathlib

/-!
# Pointer-chase cache benchmark (`hw2_sizes.cc`): a shallow embedding

The development models the chain builder `build_list`, the cache-defeat pass
`trash_caches`, the timed traversals `dep_walk_cy_per_load` and
`p1_dep_cy_per_load`, and the stride sweep `run_p1`, over a byte-addressed
memory.

Conventions.
* A machine word of type `size_t`, `uint64_t` or a pointer is a natural number
  below `2 ^ 64`; a `uint32_t` is a natural number below `2 ^ 32`; an `int` is
  an integer in `[-2 ^ 31, 2 ^ 31)`.  Wrap-around is written out with `%`.
* Memory is a function from byte addresses to byte values; 8-byte loads and
  stores are little endian.  `struct Node` is laid out as `next` at offset 0
  and `data` at offset 8, so `sizeof(Node) = 16`.
* A function that may fail to return (a loop that never exits, a division by
  zero) yields an `Option`; `none` means that no value is returned.
* The cycle counter is a stream `clock : Nat → Nat`; the `n`-th call of
  `rdtsc_serialized` reads `clock n`.
-/

namespace CacheSizes

/-! ## Memory -/

/-- Byte-addressed memory: the byte stored at every address. -/
abbrev Mem := Nat → Nat

/-- The 2^64 modulus of `size_t`, `uint64_t` and pointers. -/
def W64 : Nat := 2 ^ 64

/-- The 2^32 modulus of `uint32_t`. -/
def W32 : Nat := 2 ^ 32

/-- Little-endian value of the `n` bytes of `m` starting at address `a`. -/
def loadBytes (m : Mem) (a : Nat) : Nat → Nat
  | 0 => 0
  | n + 1 => m a % 256 + 256 * loadBytes m (a + 1) n

/-- An aligned or unaligned 8-byte load, as performed by `p->next`, `p[i]`. -/
def load64 (m : Mem) (a : Nat) : Nat := loadBytes m a 8

/-- An 8-byte little-endian store of the low 64 bits of `v` at address `a`. -/
def store64 (m : Mem) (a v : Nat) : Mem :=
  fun x => if a ≤ x ∧ x < a + 8 then v / 256 ^ (x - a) % 256 else m x

/-- The size of `struct Node { Node* next; uint64_t data; }`. -/
def sizeofNode : Nat := 16

/-- The field `p->next`. -/
def nodeNext (m : Mem) (p : Nat) : Nat := load64 m p

/-- The field `p->data`. -/
def nodeData (m : Mem) (p : Nat) : Nat := load64 m (p + 8)

/-- The two stores `cur->next = nxt; cur->data = 0x12345678ULL;`. -/
def writeNode (m : Mem) (cur nxt : Nat) : Mem :=
  store64 (store64 m cur nxt) (cur + 8) 0x12345678

/-! ## Constants -/

/-- The constant `kPageSize`. -/
def kPageSize : Nat := 4096

/-- The constant `kBufSize`, 64 MiB. -/
def kBufSize : Nat := 64 * 1024 * 1024

/-- The constant `kLoadsP1`. -/
def kLoadsP1 : Int := 256

/-! ## The chain builder -/

/-- The loop `for (uint32_t i = 0; i < count; i++) idx[i] = i;` started at `i`
with `fuel` iterations allowed.  The counter is 32 bits wide and wraps; the
comparison with the `size_t` value `count` is done in 64 bits. -/
def initLoop (count : Nat) : Nat → Nat → List Nat → Option (List Nat)
  | 0, _, _ => none
  | fuel + 1, i, idx =>
    if i < count then initLoop count fuel ((i + 1) % W32) (idx.set i i)
    else some idx

/-- The generator `lcg` of `build_list`: the new seed and the returned
`uint32_t`, the high half of the new seed. -/
def lcg (seed : Nat) : Nat × Nat :=
  let s := (seed * 0xDEADBEEFDEADBEEF + 1442695040888963407) % W64
  (s, s / W32)

/-- The exchange `std::swap(idx[i], idx[j])`. -/
def swapAt (idx : List Nat) (i j : Nat) : List Nat :=
  (idx.set i (idx.getD j 0)).set j (idx.getD i 0)

/-- The shuffle loop
`for (size_t i = count - 1; i > 0; i--) { j = gen() % (uint32_t)(i + 1); swap }`
for an arbitrary generator `gen` with state `σ`.  The first argument is the
current value of `i`.  The divisor is truncated to 32 bits; a zero divisor
traps, so no list is produced. -/
def shuffleLoop {σ : Type} (gen : σ → σ × Nat) : Nat → σ → List Nat → Option (List Nat)
  | 0, _, idx => some idx
  | i + 1, s, idx =>
    let d := (i + 1 + 1) % W32
    if d = 0 then none
    else shuffleLoop gen i (gen s).1 (swapAt idx (i + 1) ((gen s).2 % d))

/-- The seed `0xC0FFEEULL ^ (uint64_t)count ^ (uint64_t)stride`. -/
def seedOf (count stride : Nat) : Nat := (0xC0FFEE ^^^ count) ^^^ stride

/-- The index vector after the optional shuffle. -/
def shuffled (count stride : Nat) (scrambled : Bool) (idx : List Nat) : Option (List Nat) :=
  if scrambled then shuffleLoop lcg (count - 1) (seedOf count stride) idx else some idx

/-- The loop `for (size_t k = 1; k < count; k++)` of `build_list`, run over the
entries `idx[1], ..., idx[count - 1]` given as a list; returns the final `cur`
and the memory. -/
def linkLoop (base stride : Nat) : List Nat → Nat → Mem → Nat × Mem
  | [], cur, m => (cur, m)
  | x :: rest, cur, m =>
    let off := x * stride % W64
    let nxt := base + off
    linkLoop base stride rest nxt (writeNode m cur nxt)

/-- The part of `build_list` after the shuffle: the links are written and the
cycle is closed. -/
def linkAll (m : Mem) (base stride : Nat) (idx : List Nat) : Nat × Mem :=
  let first := base + idx.getD 0 0 * stride % W64
  let r := linkLoop base stride (idx.drop 1) first m
  (first, writeNode r.2 r.1 first)

/-- The index vector `idx` of `build_list` after the initialisation loop and
the optional shuffle; `none` when one of the two loops does not complete. -/
def indexVector (fuel count stride : Nat) (scrambled : Bool) : Option (List Nat) :=
  match initLoop count fuel 0 (List.replicate count 0) with
  | none => none
  | some idx => shuffled count stride scrambled idx

/-- The function `build_list(base, bytes, stride, scrambled)` on memory `m`.
The result is the returned pointer (`0` is `nullptr`) and the memory after the
call; `none` when the call does not return.  `fuel` bounds the number of
iterations of the initialisation loop. -/
def build_list (fuel : Nat) (m : Mem) (base bytes stride : Nat) (scrambled : Bool) :
    Option (Nat × Mem) :=
  if stride < sizeofNode then some (0, m)
  else if bytes / stride < 2 then some (0, m)
  else
    match indexVector fuel (bytes / stride) stride scrambled with
    | none => none
    | some idx => some (linkAll m base stride idx)

/-- The pointer reached from `p` after `n` steps `p = p->next`. -/
def walk (m : Mem) : Nat → Nat → Nat
  | 0, p => p
  | n + 1, p => walk m n (nodeNext m p)

/-- Two node records at `p` and `q` do not share a byte. -/
def Sep (p q : Nat) : Prop := p + 16 ≤ q ∨ q + 16 ≤ p

/-- The address `base + idx * stride` of a slot, the product taken in 64 bits. -/
def slotAddr (base stride x : Nat) : Nat := base + x * stride % W64

/-- Memory after the link loop over `xs` started at `cur` and the closing
stores that link the last node to `first`. -/
def closeChain (base stride : Nat) (xs : List Nat) (cur first : Nat) (m : Mem) : Mem :=
  writeNode (linkLoop base stride xs cur m).2 (linkLoop base stride xs cur m).1 first

/-- In memory `m` the slots listed by `idx` are linked in this order into one
cycle, each with the sentinel payload. -/
def ChainOf (m : Mem) (base stride : Nat) (idx : List Nat) : Prop :=
  ∀ k, k < idx.length →
    nodeNext m (base + idx.getD k 0 * stride) =
      base + idx.getD ((k + 1) % idx.length) 0 * stride ∧
    nodeData m (base + idx.getD k 0 * stride) = 0x12345678

/-- The buffer `[base, base + bytes)` starts at a non-null address and lies
inside the 64-bit address space. -/
def ValidBuf (base bytes : Nat) : Prop := 0 < base ∧ base + bytes ≤ W64

/-- The all-zero memory left by `alloc_page_aligned`. -/
def zeroMem : Mem := fun _ => 0

/-! ## The shuffle loop as a function of the generator values -/

/-- A generator that replays the values of a list, one per call. -/
def replay (l : List Nat) : List Nat × Nat := (l.tail, l.headD 0)

/-- The shuffle loop of `build_list` on `count` slots, started on the identity
index vector, with the generator returning the values `draws` in order. -/
def shuffleWith (count : Nat) (draws : List Nat) : Option (List Nat) :=
  shuffleLoop replay (count - 1) draws (List.range count)

/-- The list `js` holds one swap index per loop position `i = n, ..., 1`, each
within `0 .. i`. -/
def IndexSeq : Nat → List Nat → Prop
  | 0, js => js = []
  | _ + 1, [] => False
  | n + 1, j :: js => j ≤ n + 1 ∧ IndexSeq n js

/-- The number of pairs of 32-bit generator values for which the shuffle loop
on three slots produces the ordering `l`. -/
def pairsProducing (l : List Nat) : Nat :=
  ((Finset.range W32 ×ˢ Finset.range W32).filter
    (fun d => shuffleWith 3 [d.1, d.2] = some l)).card

/-! ## Timing -/

/-- The call `rdtsc_serialized()` at clock position `tick`: the 64-bit reading
and the next clock position. -/
def rdtsc_serialized (clock : Nat → Nat) (tick : Nat) : Nat × Nat :=
  (clock tick % W64, tick + 1)

/-- The `uint64_t` difference `a - b`. -/
def sub64 (a b : Nat) : Nat := (((a : Int) - (b : Int)) % (W64 : Int)).toNat

/-- The conversion `(uint64_t)count` of an `int`. -/
def toU64 (count : Int) : Nat := (count % (W64 : Int)).toNat

/-- The outcome of a timed measurement: the returned cycles per load, the
pointer handed to `keep_live` when that call is reached, and the memory and the
clock position after the call. -/
structure Timed where
  value : Nat
  kept : Option Nat
  mem : Mem
  tick : Nat

/-- The loop `for (int i = i0; i < count; i += 4) body` on a state of type `σ`,
started at `i` with `fuel` iterations allowed; `none` when the fuel runs out or
`i += 4` overflows `int`. -/
def forBy4 {σ : Type} (body : σ → σ) (count : Int) : Nat → Int → σ → Option σ
  | 0, _, _ => none
  | fuel + 1, i, s =>
    if i < count then
      if i + 4 < 2 ^ 31 then forBy4 body count fuel (i + 4) (body s) else none
    else some s

/-- The unrolled body `p = p->next;` four times, on the memory and the
pointer; the loads leave the memory as it is. -/
def chase4 (s : Mem × Nat) : Mem × Nat :=
  (s.1, nodeNext s.1 (nodeNext s.1 (nodeNext s.1 (nodeNext s.1 s.2))))

/-- The function `trash_caches(buf, bytes)`: the memory after the pass and the
final value of `sum`. -/
def trash_caches (m : Mem) (buf bytes : Nat) : Mem × Nat :=
  (List.range (bytes / 8)).foldl
    (fun st i => (st.1, (st.2 + load64 st.1 (buf + 8 * i)) % W64)) (m, 0)

/-- The function `dep_walk_cy_per_load(head, count)` run on memory `m` at clock
position `tick`; `none` when the call does not return a value (loop out of
fuel, `int` overflow, division by zero). -/
def dep_walk_cy_per_load (clock : Nat → Nat) (fuel : Nat) (m : Mem) (tick : Nat)
    (head : Nat) (count : Int) : Option Timed :=
  let t0 := rdtsc_serialized clock tick
  match forBy4 chase4 count fuel 0 (m, head) with
  | none => none
  | some s =>
    let t1 := rdtsc_serialized clock t0.2
    if toU64 count = 0 then none
    else some ⟨sub64 t1.1 t0.1 / toU64 count, some s.2, s.1, t1.2⟩

/-- The function `p1_dep_cy_per_load(base, bytes, stride, scrambled)`. -/
def p1_dep_cy_per_load (clock : Nat → Nat) (fuel : Nat) (m : Mem) (tick : Nat)
    (base bytes stride : Nat) (scrambled : Bool) : Option Timed :=
  match build_list fuel m base bytes stride scrambled with
  | none => none
  | some (head, m1) =>
    if head = 0 then some ⟨0, none, m1, tick⟩
    else
      let m2 := (trash_caches m1 base bytes).1
      let t0 := rdtsc_serialized clock tick
      match forBy4 chase4 kLoadsP1 fuel 0 (m2, head) with
      | none => none
      | some s =>
        let t1 := rdtsc_serialized clock t0.2
        some ⟨sub64 t1.1 t0.1 / toU64 kLoadsP1, some s.2, s.1, t1.2⟩

/-- The unrolled body of the loop of `p1_naive_cy_per_load` on the memory, the
pointer `q` and `sum`: four loads `step` words apart, then `q += 4 * step`. -/
def naive4 (step : Nat) (s : Mem × Nat × Nat) : Mem × Nat × Nat :=
  let q := s.2.1
  let s0 := (s.2.2 + load64 s.1 q) % W64
  let s1 := (s0 + load64 s.1 (q + 8 * (1 * step))) % W64
  let s2 := (s1 + load64 s.1 (q + 8 * (2 * step))) % W64
  let s3 := (s2 + load64 s.1 (q + 8 * (3 * step))) % W64
  (s.1, q + 8 * (4 * step), s3)

/-- The function `p1_naive_cy_per_load(base, bytes, stride)`. -/
def p1_naive_cy_per_load (clock : Nat → Nat) (fuel : Nat) (m : Mem) (tick : Nat)
    (base bytes stride : Nat) : Option Timed :=
  let step := stride / 8
  let m1 := (trash_caches m base bytes).1
  let t0 := rdtsc_serialized clock tick
  match forBy4 (naive4 step) kLoadsP1 fuel 0 (m1, base, 0) with
  | none => none
  | some s =>
    let t1 := rdtsc_serialized clock t0.2
    some ⟨sub64 t1.1 t0.1 / toU64 kLoadsP1, none, s.1, t1.2⟩

/-- One printed row of `run_p1`. -/
structure Row where
  stride : Nat
  naive : Nat
  lin : Nat
  scr : Nat

/-- The loop `for (int lg = 4; lg <= 12; lg++)` of `run_p1` started at `lg`,
with the rows printed so far; returns the rows, the memory and the clock
position. -/
def p1Loop (clock : Nat → Nat) (fuel : Nat) (buf : Nat) :
    Nat → Nat → List Row → Mem → Nat → Option (List Row × Mem × Nat)
  | 0, _, _, _, _ => none
  | n + 1, lg, rows, m, tick =>
    if lg ≤ 12 then
      let stride := 2 ^ lg % W64
      match p1_naive_cy_per_load clock fuel m tick buf kBufSize stride with
      | none => none
      | some a =>
        match p1_dep_cy_per_load clock fuel a.mem a.tick buf (64 * 1024) stride false with
        | none => none
        | some b =>
          match p1_dep_cy_per_load clock fuel b.mem b.tick buf (64 * 1024) stride true with
          | none => none
          | some c =>
            p1Loop clock fuel buf n (lg + 1)
              (rows ++ [⟨stride, a.value, b.value, c.value⟩]) c.mem c.tick
    else some (rows, m, tick)

/-- The function `run_p1(buf)`: the printed rows, the final memory and the
final clock position. -/
def run_p1 (clock : Nat → Nat) (fuel : Nat) (m : Mem) (tick : Nat) (buf : Nat) :
    Option (List Row × Mem × Nat) :=
  p1Loop clock fuel buf fuel 4 [] m tick

/-! ## The capacity sweep -/

/-- One printed row of `run_p2`, with the outcome of each of the four timed
traversals (`r0` cold, `r1`, `r2`, `r3` warm). -/
structure P2Row where
  lg : Nat
  lines : Int
  bytes : Nat
  r0 : Timed
  r1 : Timed
  r2 : Timed
  r3 : Timed

/-- The outcome of `run_p2`: the printed rows, whether `failed to build list`
was reported, and the memory and the clock position at the return. -/
structure P2Out where
  rows : List P2Row
  failed : Bool
  mem : Mem
  tick : Nat

/-- The loop `for (int lg = 4; ; lg++)` of `run_p2` started at `lg`, with the
rows printed so far.  `1 << lg` does not fit an `int` from `lg = 31` on; the
product `(size_t)lines * (size_t)linesize` is taken in 64 bits. -/
def p2Loop (clock : Nat → Nat) (fuel : Nat) (buf head : Nat) (linesize : Int) :
    Nat → Nat → List P2Row → Mem → Nat → Option (List P2Row × Mem × Nat)
  | 0, _, _, _, _ => none
  | n + 1, lg, rows, m, tick =>
    if 31 ≤ lg then none
    else
      let lines : Int := ((2 ^ lg : Nat) : Int)
      let bytes := toU64 lines * toU64 linesize % W64
      if bytes > kBufSize then some (rows, m, tick)
      else
        let m1 := (trash_caches m buf kBufSize).1
        match dep_walk_cy_per_load clock fuel m1 tick head lines with
        | none => none
        | some r0 =>
          match dep_walk_cy_per_load clock fuel r0.mem r0.tick head lines with
          | none => none
          | some r1 =>
            match dep_walk_cy_per_load clock fuel r1.mem r1.tick head lines with
            | none => none
            | some r2 =>
              match dep_walk_cy_per_load clock fuel r2.mem r2.tick head lines with
              | none => none
              | some r3 =>
                p2Loop clock fuel buf head linesize n (lg + 1)
                  (rows ++ [⟨lg, lines, bytes, r0, r1, r2, r3⟩]) r3.mem r3.tick

/-- The function `run_p2(buf, linesize)`. -/
def run_p2 (clock : Nat → Nat) (fuel : Nat) (m : Mem) (tick buf : Nat) (linesize : Int) :
    Option P2Out :=
  match build_list fuel m buf kBufSize (toU64 linesize) true with
  | none => none
  | some (head, m1) =>
    if head = 0 then some ⟨[], true, m1, tick⟩
    else
      match p2Loop clock fuel buf head linesize fuel 4 [] m1 tick with
      | none => none
      | some r => some ⟨r.1, false, r.2.1, r.2.2⟩

/-- The traversals of row `row` all walk `2 ^ lg` links of the chain at
`head` in memory `m`, over `linesize`-byte lines. -/
def RowWalks (m : Mem) (head linesize : Nat) (row : P2Row) : Prop :=
  row.lines = ((2 ^ row.lg : Nat) : Int) ∧ row.bytes = 2 ^ row.lg * linesize ∧
    row.r0.kept = some (walk m (2 ^ row.lg) head) ∧
    row.r1.kept = some (walk m (2 ^ row.lg) head) ∧
    row.r2.kept = some (walk m (2 ^ row.lg) head) ∧
    row.r3.kept = some (walk m (2 ^ row.lg) head) ∧
    row.r0.mem = m ∧ row.r1.mem = m ∧ row.r2.mem = m ∧ row.r3.mem = m

end CacheSizes

/-!
# Matrix transpose (`hw3_brian.cc`)

A `qword` is an integer in `[-2 ^ 63, 2 ^ 63)`; `qw_mem` is a function from
element indices to `qword` values.  The counter of a loop `for (x = lo; x < n; x++)`
runs over the natural numbers below the bound `n`, which it never exceeds; the
counter `j` of the unrolled loop, whose test adds 3 to it, is a `qword` with
wrapping sums, and that loop is given a bound on the tests of its condition.
-/

namespace Transpose

/-- The array `qw_mem`: the `qword` stored at every element index. -/
abbrev QMem := Int → Int

/-- The constant `REPEAT_COUNT`. -/
def REPEAT_COUNT : Nat := 1

/-- A 64-bit two's-complement result of `qword` arithmetic. -/
def wrap64 (x : Int) : Int := (x + 2 ^ 63) % 2 ^ 64 - 2 ^ 63

/-- The macro `ij(i, j, n)`, that is `(qword)(i) * (qword)(n) + (qword)(j)`. -/
def ij (i j n : Int) : Int := wrap64 (wrap64 (i * n) + j)

/-- The exchange `tmp = qw_mem[a]; qw_mem[a] = qw_mem[b]; qw_mem[b] = tmp;`. -/
def swapCells (m : QMem) (a b : Int) : QMem :=
  fun x => if x = b then m a else if x = a then m b else m x

/-- The store `qw_mem[a] = v`. -/
def setCell (m : QMem) (a v : Int) : QMem := fun x => if x = a then v else m x

/-- The values `lo, lo + 1, ..., hi - 1` of a loop `for (x = lo; x < hi; x++)`. -/
def upto (lo : Nat) (hi : Int) : List Nat := List.range' lo (hi.toNat - lo)

/-- The values `lo, lo + step, ...` below `hi` of a loop
`for (x = lo; x < hi; x += step)`. -/
def uptoBy (lo : Nat) (hi : Int) (step : Nat) : List Nat :=
  (List.range ((hi.toNat - lo + (step - 1)) / step)).map (fun t => lo + t * step)

/-- The body of the loops of `transpose`: the swap of the cells `(i, j)` and
`(j, i)`. -/
def swapIJ (n : Int) (i j : Nat) (m : QMem) : QMem :=
  swapCells m (ij i j n) (ij j i n)

/-- The function `init_square_matrix(qw_mem, n)`. -/
def init_square_matrix (m : QMem) (n : Int) : QMem :=
  (upto 0 n).foldl (fun (m : QMem) (i : Nat) =>
    (upto 0 n).foldl (fun (m : QMem) (j : Nat) => setCell m (ij i j n) (ij i j n)) m) m

/-- One pass of case 0 of `transpose`: the plain loop nest. -/
def transposePlain (m : QMem) (n : Int) : QMem :=
  (upto 0 n).foldl (fun (m : QMem) (i : Nat) =>
    (upto (i + 1) n).foldl (fun (m : QMem) (j : Nat) => swapIJ n i j m) m) m

/-- The sum of two `qword`s, as the machine computes it. -/
def qadd (a b : Int) : Int := wrap64 (a + b)

/-- The values `lo, lo + 1, ..., hi - 1` of a loop `for (; j < hi; j++)` entered
with the `qword` `j = lo`. -/
def uptoFrom (lo hi : Int) : List Int :=
  (List.range (hi - lo).toNat).map (fun (t : Nat) => lo + (t : Int))

/-- The swap of the cells `idx = ij(i, j, n)` and `jdx = ij(j, i, n)`, for the
`qword`s `i` and `j`. -/
def swapQ (n i j : Int) (m : QMem) : QMem := swapCells m (ij i j n) (ij j i n)

/-- The loop `for (; j + 3 < n; j += 4)` of case 1 entered with `j`, run for at
most `fuel` tests of its condition; returns the final `j` and the memory, and
`none` when the loop has not exited by then. -/
def unrolledLoop (n : Int) (i : Nat) : Nat → Int → QMem → Option (Int × QMem)
  | 0, _, _ => none
  | fuel + 1, j, m =>
    if qadd j 3 < n then
      let m0 := swapQ n i (qadd j 0) m
      let m1 := swapQ n i (qadd j 1) m0
      let m2 := swapQ n i (qadd j 2) m1
      let m3 := swapQ n i (qadd j 3) m2
      unrolledLoop n i fuel (qadd j 4) m3
    else some (j, m)

/-- The body of the loop over `i` of case 1: `j = i + 1`, the loop unrolled by
4 (given `n` tests of its condition), then the remainder loop. -/
def unrolledRow (n : Int) (m : QMem) (i : Nat) : Option QMem :=
  match unrolledLoop n i n.toNat ((i : Int) + 1) m with
  | none => none
  | some r => some ((uptoFrom r.1 n).foldl (fun (m : QMem) (j : Int) => swapQ n i j m) r.2)

/-- One pass of case 1 of `transpose`: for every row the inner loop unrolled by
4, followed by the remainder loop. -/
def transposeUnrolled (m : QMem) (n : Int) : Option QMem :=
  (upto 0 n).foldlM (unrolledRow n) m

/-- One pass of case 2 of `transpose`: tiles of `B = 16` rows and columns. -/
def transposeBlocked (m : QMem) (n : Int) : QMem :=
  (uptoBy 0 n 16).foldl (fun (m : QMem) (bi : Nat) =>
    let i_end : Int := if (bi : Int) + 16 > n then n else (bi : Int) + 16
    let m1 := (upto bi i_end).foldl (fun (m : QMem) (i : Nat) =>
      (upto (i + 1) i_end).foldl (fun (m : QMem) (j : Nat) => swapIJ n i j m) m) m
    (uptoBy (bi + 16) n 16).foldl (fun (m : QMem) (bj : Nat) =>
      let j_end : Int := if (bj : Int) + 16 > n then n else (bj : Int) + 16
      (upto bi i_end).foldl (fun (m : QMem) (i : Nat) =>
        (upto bj j_end).foldl (fun (m : QMem) (j : Nat) => swapIJ n i j m) m) m) m1) m

/-- The function `transpose(qw_mem, n, part)`; `none` for an unexpected part,
on which the program exits. -/
def transpose (m : QMem) (n : Int) (part : Int) : Option QMem :=
  if part = 0 then some ((fun m => transposePlain m n)^[REPEAT_COUNT] m)
  else if part = 1 then
    (fun (o : Option QMem) => o.bind (fun (m : QMem) => transposeUnrolled m n))^[REPEAT_COUNT]
      (some m)
  else if part = 2 then some ((fun m => transposeBlocked m n)^[REPEAT_COUNT] m)
  else none

/-- The function `check_transpose(qw_mem, n)`. -/
def check_transpose (m : QMem) (n : Int) : Nat :=
  (upto 0 n).foldl (fun (ok : Nat) (i : Nat) =>
    (upto (i + 1) n).foldl (fun (ok : Nat) (j : Nat) =>
      ok &&& (if m (ij i j n) = ij j i n then 1 else 0)) ok) 1

/-- An `n × n` array of qwords exists: `n ≥ 0` and its `8 * n * n` bytes fit
the 64-bit address space. -/
def ValidMatrix (n : Int) : Prop := 0 ≤ n ∧ 8 * (n * n) ≤ 2 ^ 64

/-- The cell pairs swapped by case 0 of `transpose`, in the order of the swaps. -/
def cellPairs (n : Int) : List (Int × Int) :=
  (upto 0 n).flatMap (fun (i : Nat) =>
    (upto (i + 1) n).map (fun (j : Nat) => (ij i j n, ij j i n)))

/-- Two cell pairs have no cell in common. -/
def Apart (p q : Int × Int) : Prop := p.1 ≠ q.1 ∧ p.1 ≠ q.2 ∧ p.2 ≠ q.1 ∧ p.2 ≠ q.2

end Transpose

/-!
# Memory copy (`lab1_brian_final.c`)

Addresses and the `long long` count are integers; pointer arithmetic is exact.
The memory maps every address to the byte stored there.  A loop that may fail
to exit is run with a bound `fuel` on its iterations and yields `none` when the
bound is reached; `none` is also the outcome of `exit`.
-/

namespace MemCopy

/-- The byte stored at every address. -/
abbrev Bytes := Int → Nat

/-- The constant `MEMSIZE_BYTES`, the size of the array allocated by `main`. -/
def MEMSIZE_BYTES : Int := 1024 * 1024 * 1024

/-- The registers of a copy loop: the memory, the two moving pointers and the
remaining count. -/
structure Regs where
  m : Bytes
  src : Int
  dst : Int
  cnt : Int

/-- The byte copy `*d = *s`. -/
def copyByte (m : Bytes) (s d : Int) : Bytes := fun x => if x = d then m s else m x

/-- The `uint32_t` copy `*wd = *ws`: the four bytes at `s .. s + 3` are read,
then written at `d .. d + 3`. -/
def copyWord (m : Bytes) (s d : Int) : Bytes :=
  fun x => if d ≤ x ∧ x < d + 4 then m (s + (x - d)) else m x

/-- The function `ranges_overlap(src, dst, cnt)`. -/
def ranges_overlap (src dst cnt : Int) : Bool :=
  decide (src < dst + cnt) && decide (dst < src + cnt)

/-- A loop `while (cond) body` run for at most `fuel` iterations. -/
def whileLoop {σ : Type} (cond : σ → Bool) (body : σ → σ) : Nat → σ → Option σ
  | 0, _ => none
  | fuel + 1, s => if cond s then whileLoop cond body fuel (body s) else some s

/-- The body `*dst++ = *src++`. -/
def stepFwd (r : Regs) : Regs := ⟨copyByte r.m r.src r.dst, r.src + 1, r.dst + 1, r.cnt⟩

/-- The body `*--d = *--s`. -/
def stepBwd (r : Regs) : Regs :=
  ⟨copyByte r.m (r.src - 1) (r.dst - 1), r.src - 1, r.dst - 1, r.cnt⟩

/-- The body `*dst++ = *src++; cnt--`. -/
def stepFwdCnt (r : Regs) : Regs :=
  ⟨copyByte r.m r.src r.dst, r.src + 1, r.dst + 1, r.cnt - 1⟩

/-- The body `*--d = *--s; cnt--`. -/
def stepBwdCnt (r : Regs) : Regs :=
  ⟨copyByte r.m (r.src - 1) (r.dst - 1), r.src - 1, r.dst - 1, r.cnt - 1⟩

/-- The body `*wd++ = *ws++; cnt -= 4`. -/
def stepFwdWord (r : Regs) : Regs :=
  ⟨copyWord r.m r.src r.dst, r.src + 4, r.dst + 4, r.cnt - 4⟩

/-- The body `*--wd = *--ws; cnt -= 4`. -/
def stepBwdWord (r : Regs) : Regs :=
  ⟨copyWord r.m (r.src - 4) (r.dst - 4), r.src - 4, r.dst - 4, r.cnt - 4⟩

/-- The condition `cnt > 0 && (((uintptr_t)s & 3u) != 0u || ((uintptr_t)d & 3u) != 0u)`
of the two strip loops. -/
def unaligned (r : Regs) : Bool :=
  decide (r.cnt > 0) && (decide (r.src % 4 ≠ 0) || decide (r.dst % 4 ≠ 0))

/-- The direction test `!ranges_overlap(src, dst, cnt) || dst < src`. -/
def forward (src dst cnt : Int) : Bool := !ranges_overlap src dst cnt || decide (dst < src)

/-- Case 0 of `mem_copy_parts`, and the forward branch of case 1. -/
def copyFwd (fuel : Nat) (m : Bytes) (src dst cnt : Int) : Option Regs :=
  whileLoop (fun r => decide (r.src < src + cnt)) stepFwd fuel ⟨m, src, dst, cnt⟩

/-- The backward branch of case 1 of `mem_copy_parts`. -/
def copyBwd (fuel : Nat) (m : Bytes) (src dst cnt : Int) : Option Regs :=
  whileLoop (fun r => decide (r.src > src)) stepBwd fuel ⟨m, src + cnt, dst + cnt, cnt⟩

/-- The forward branch of case 2: strip, word copy, tail.  The last loop is
`while (cnt-- > 0)`; its final decrement of the dead `cnt` is left out. -/
def wordFwd (fuel : Nat) (m : Bytes) (src dst cnt : Int) : Option Regs :=
  match whileLoop unaligned stepFwdCnt fuel ⟨m, src, dst, cnt⟩ with
  | none => none
  | some r1 =>
    match whileLoop (fun r => decide (r.cnt ≥ 4)) stepFwdWord fuel r1 with
    | none => none
    | some r2 => whileLoop (fun r => decide (r.cnt > 0)) stepFwdCnt fuel r2

/-- The backward branch of case 2. -/
def wordBwd (fuel : Nat) (m : Bytes) (src dst cnt : Int) : Option Regs :=
  match whileLoop unaligned stepBwdCnt fuel ⟨m, src + cnt, dst + cnt, cnt⟩ with
  | none => none
  | some r1 =>
    match whileLoop (fun r => decide (r.cnt ≥ 4)) stepBwdWord fuel r1 with
    | none => none
    | some r2 => whileLoop (fun r => decide (r.cnt > 0)) stepBwdCnt fuel r2

/-- The instruction `rep movsb` with the direction flag clear (`back = false`)
or set: while the 64-bit count register is not zero, one byte is copied, the
two pointers move by one and the count is decremented. -/
def repMovsb (back : Bool) (fuel : Nat) (r : Regs) : Option Regs :=
  whileLoop (fun r => decide (r.cnt ≠ 0))
    (fun r => ⟨copyByte r.m r.src r.dst, if back then r.src - 1 else r.src + 1,
      if back then r.dst - 1 else r.dst + 1, r.cnt - 1⟩) fuel
    ⟨r.m, r.src, r.dst, r.cnt % 2 ^ 64⟩

/-- The function `mem_copy_parts(src, dst, cnt, part)` on memory `m`: the memory
at the return (the returned value is always 0); `none` when the function does
not return (`exit` on a bad part number, or a loop beyond `fuel`). -/
def mem_copy_parts (fuel : Nat) (m : Bytes) (src dst cnt : Int) (part : Int) : Option Bytes :=
  if part = 0 then (copyFwd fuel m src dst cnt).map Regs.m
  else if part = 1 then
    if forward src dst cnt then (copyFwd fuel m src dst cnt).map Regs.m
    else (copyBwd fuel m src dst cnt).map Regs.m
  else if part = 2 then
    if forward src dst cnt then (wordFwd fuel m src dst cnt).map Regs.m
    else (wordBwd fuel m src dst cnt).map Regs.m
  else if part = 3 then
    if forward src dst cnt then (repMovsb false fuel ⟨m, src, dst, cnt⟩).map Regs.m
    else (repMovsb true fuel ⟨m, src + cnt - 1, dst + cnt - 1, cnt⟩).map Regs.m
  else none

/-- The function `mem_copy_bytes(arr, arr_end, src, dst, cnt, part)` on memory
`m`: the returned code and the memory at the return. -/
def mem_copy_bytes (fuel : Nat) (m : Bytes) (arr arr_end src dst cnt : Int) (part : Int) :
    Option (Int × Bytes) :=
  let src_end := src + cnt
  let dst_end := dst + cnt
  if src < arr then some (1, m)
  else if src_end ≥ arr_end then some (2, m)
  else if dst < arr then some (3, m)
  else if dst_end ≥ arr_end then some (4, m)
  else if (part = 0 ∧ (src ≤ dst ∧ dst < src_end)) ∨ (src ≤ dst_end ∧ dst_end < src_end) then
    some (5, m)
  else
    match mem_copy_parts fuel m src dst cnt part with
    | none => none
    | some m' => some (0, m')

/-- The memory `m` with the bytes `dst .. dst + cnt - 1` replaced by the bytes
that `m` holds at `src .. src + cnt - 1`. -/
def moved (m : Bytes) (src dst cnt : Int) : Bytes :=
  fun x => if dst ≤ x ∧ x < dst + cnt then m (src + (x - dst)) else m x

/-- The memory `m` with only the last `k` bytes of the destination region
replaced. -/
def movedBack (m : Bytes) (src dst cnt k : Int) : Bytes :=
  fun x => if dst + cnt - k ≤ x ∧ x < dst + cnt then m (src + (x - dst)) else m x

/-- The memory `mem` initialised by `main`: byte `i` holds `(char) i`. -/
def initMem : Bytes := fun a => (a % 256).toNat

/-- The registers after `k` bytes of a forward copy of `N` bytes. -/
def FwdAt (m : Bytes) (S D N : Int) (r : Regs) : Prop :=
  ∃ k, 0 ≤ k ∧ k ≤ N ∧ r.src = S + k ∧ r.dst = D + k ∧ r.cnt = N - k ∧ r.m = moved m S D k

/-- The registers after `k` bytes of a backward copy of `N` bytes. -/
def BwdAt (m : Bytes) (S D N : Int) (r : Regs) : Prop :=
  ∃ k, 0 ≤ k ∧ k ≤ N ∧ r.src = S + N - k ∧ r.dst = D + N - k ∧ r.cnt = N - k ∧
    r.m = movedBack m S D N k

end MemCopy

namespace CacheSizes

/-! ## Loads and stores -/

theorem loadBytes_congr (m m' : Mem) (n a : Nat) (h : ∀ x, a ≤ x → x < a + n → m' x = m x) :
    loadBytes m' a n = loadBytes m a n := by
  induction n generalizing a with
  | zero => rfl
  | succ n ih =>
    simp only [loadBytes]
    rw [h a (le_refl _) (by omega), ih (a + 1) (fun x h1 h2 => h x (by omega) (by omega))]

theorem loadBytes_digits (m : Mem) (v : Nat) (n a k : Nat)
    (h : ∀ i, i < n → m (a + i) = v / 256 ^ (k + i) % 256) :
    loadBytes m a n = v / 256 ^ k % 256 ^ n := by
  induction n generalizing a k with
  | zero => simp [loadBytes, Nat.mod_one]
  | succ n ih =>
    have h0 := h 0 (by omega)
    simp only [Nat.add_zero] at h0
    have hs : loadBytes m (a + 1) n = v / 256 ^ (k + 1) % 256 ^ n := by
      apply ih
      intro i hi
      have := h (i + 1) (by omega)
      rw [show a + 1 + i = a + (i + 1) by omega, show k + 1 + i = k + (i + 1) by omega]
      exact this
    simp only [loadBytes]
    rw [h0, hs, Nat.mod_mod, pow_succ 256 n, Nat.mul_comm (256 ^ n) 256, Nat.mod_mul,
      Nat.pow_succ, Nat.div_div_eq_div_mul]

theorem load64_store64_other (m : Mem) (a v b : Nat) (h : b + 8 ≤ a ∨ a + 8 ≤ b) :
    load64 (store64 m a v) b = load64 m b := by
  apply loadBytes_congr
  intro x h1 h2
  simp only [store64]
  rw [if_neg]
  omega

theorem load64_store64_same (m : Mem) (a v : Nat) :
    load64 (store64 m a v) a = v % W64 := by
  have := loadBytes_digits (store64 m a v) v 8 a 0 (by
    intro i hi
    simp only [store64]
    rw [if_pos (by omega)]
    simp)
  simpa [load64, W64] using this

theorem load64_lt (m : Mem) (a : Nat) : load64 m a < W64 := by
  simp only [load64, loadBytes, W64]
  omega

theorem nodeNext_writeNode_same (m : Mem) (c n : Nat) :
    nodeNext (writeNode m c n) c = n % W64 := by
  simp only [nodeNext, writeNode]
  rw [load64_store64_other _ _ _ _ (Or.inl (le_refl _)), load64_store64_same]

theorem nodeData_writeNode_same (m : Mem) (c n : Nat) :
    nodeData (writeNode m c n) c = 0x12345678 := by
  simp only [nodeData, writeNode]
  rw [load64_store64_same]
  simp [W64]

theorem load64_writeNode_other (m : Mem) (c n a : Nat) (h : a + 8 ≤ c ∨ c + 16 ≤ a) :
    load64 (writeNode m c n) a = load64 m a := by
  simp only [writeNode]
  rw [load64_store64_other _ _ _ _ (by omega), load64_store64_other _ _ _ _ (by omega)]

theorem nodeNext_writeNode_other (m : Mem) (c n p : Nat) (h : Sep p c) :
    nodeNext (writeNode m c n) p = nodeNext m p := by
  unfold Sep at h
  exact load64_writeNode_other m c n p (by omega)

theorem nodeData_writeNode_other (m : Mem) (c n p : Nat) (h : Sep p c) :
    nodeData (writeNode m c n) p = nodeData m p := by
  unfold Sep at h
  exact load64_writeNode_other m c n (p + 8) (by omega)

/-! ## The link loop -/

theorem closeChain_cons (base stride x : Nat) (rest : List Nat) (cur first : Nat) (m : Mem) :
    closeChain base stride (x :: rest) cur first m =
      closeChain base stride rest (slotAddr base stride x) first
        (writeNode m cur (slotAddr base stride x)) := rfl

theorem closeChain_frame (base stride : Nat) (xs : List Nat) (cur first : Nat) (m : Mem)
    (a : Nat) (h : ∀ c ∈ cur :: xs.map (slotAddr base stride), a + 8 ≤ c ∨ c + 16 ≤ a) :
    load64 (closeChain base stride xs cur first m) a = load64 m a := by
  induction xs generalizing cur m with
  | nil =>
    simp only [closeChain, linkLoop]
    exact load64_writeNode_other _ _ _ _ (h cur (by simp))
  | cons x rest ih =>
    rw [closeChain_cons, ih]
    · exact load64_writeNode_other _ _ _ _ (h cur (by simp))
    · intro c hc
      apply h
      simp only [List.map_cons, List.mem_cons] at hc ⊢
      right
      exact hc

theorem closeChain_next (base stride : Nat) (xs : List Nat) (cur first : Nat) (m : Mem)
    (hsep : (cur :: xs.map (slotAddr base stride)).Pairwise Sep) (k : Nat)
    (hk : k < (cur :: xs.map (slotAddr base stride)).length) :
    nodeNext (closeChain base stride xs cur first m)
        ((cur :: xs.map (slotAddr base stride)).getD k 0) =
      (if k + 1 < (cur :: xs.map (slotAddr base stride)).length
        then (cur :: xs.map (slotAddr base stride)).getD (k + 1) 0 else first) % W64 ∧
    nodeData (closeChain base stride xs cur first m)
        ((cur :: xs.map (slotAddr base stride)).getD k 0) = 0x12345678 := by
  induction xs generalizing cur m k with
  | nil =>
    simp only [List.map_nil, List.length_singleton] at hk
    have hk0 : k = 0 := by omega
    subst hk0
    simp only [closeChain, linkLoop, List.map_nil, List.getD_cons_zero, List.length_singleton]
    exact ⟨by simpa using nodeNext_writeNode_same m cur first, nodeData_writeNode_same m cur first⟩
  | cons x rest ih =>
    rw [closeChain_cons]
    simp only [List.map_cons, List.pairwise_cons] at hsep
    obtain ⟨hcur, hrest⟩ := hsep
    cases k with
    | zero =>
      simp only [List.map_cons, List.getD_cons_zero, List.length_cons, List.getD_cons_succ]
      have hfr1 : ∀ c ∈ slotAddr base stride x :: rest.map (slotAddr base stride),
          cur + 8 ≤ c ∨ c + 16 ≤ cur := by
        intro c hc
        have := hcur c (by simpa using hc)
        unfold Sep at this
        omega
      have hfr2 : ∀ c ∈ slotAddr base stride x :: rest.map (slotAddr base stride),
          cur + 8 + 8 ≤ c ∨ c + 16 ≤ cur + 8 := by
        intro c hc
        have := hcur c (by simpa using hc)
        unfold Sep at this
        omega
      constructor
      · unfold nodeNext
        rw [closeChain_frame _ _ _ _ _ _ _ hfr1]
        have := nodeNext_writeNode_same m cur (slotAddr base stride x)
        unfold nodeNext at this
        rw [this, if_pos (by omega)]
      · unfold nodeData
        rw [closeChain_frame _ _ _ _ _ _ _ hfr2]
        exact nodeData_writeNode_same m cur (slotAddr base stride x)
    | succ k =>
      simp only [List.map_cons, List.length_cons] at hk
      have := ih (slotAddr base stride x) (writeNode m cur (slotAddr base stride x))
        (by simpa using hrest) k (by simpa using hk)
      simpa using this

/-! ## The index vector -/

theorem initLoop_spec (count : Nat) (hc : count < W32) (fuel i : Nat) (idx : List Nat)
    (hi : i ≤ count) (hf : count - i < fuel) (hlen : idx.length = count)
    (hpre : ∀ k, k < i → idx[k]? = some k) :
    initLoop count fuel i idx = some (List.range count) := by
  induction fuel generalizing i idx with
  | zero => omega
  | succ fuel ih =>
    simp only [initLoop]
    by_cases hlt : i < count
    · rw [if_pos hlt]
      have hmod : (i + 1) % W32 = i + 1 := Nat.mod_eq_of_lt (by omega)
      rw [hmod]
      apply ih
      · omega
      · omega
      · simpa using hlen
      · intro k hk
        rw [List.getElem?_set]
        by_cases hki : i = k
        · subst hki
          simp [hlen, hlt]
        · rw [if_neg hki]
          exact hpre k (by omega)
    · rw [if_neg hlt]
      have hic : i = count := by omega
      subst hic
      congr 1
      apply List.ext_getElem?
      intro k
      by_cases hk : k < i
      · rw [hpre k hk]
        simp [hk]
      · rw [List.getElem?_eq_none (by omega), List.getElem?_eq_none (by simpa using (by omega : i ≤ k))]

theorem initLoop_diverges (count : Nat) (hc : W32 ≤ count) (fuel i : Nat) (idx : List Nat)
    (hi : i < W32) : initLoop count fuel i idx = none := by
  induction fuel generalizing i idx with
  | zero => rfl
  | succ fuel ih =>
    simp only [initLoop]
    rw [if_pos (by omega)]
    exact ih _ _ (Nat.mod_lt _ (by simp [W32]))

theorem swapAt_length (idx : List Nat) (i j : Nat) : (swapAt idx i j).length = idx.length := by
  simp [swapAt]

theorem swapAt_perm (idx : List Nat) (i j : Nat) (hi : i < idx.length) (hj : j < idx.length) :
    (swapAt idx i j).Perm idx := by
  rw [List.perm_iff_count]
  intro a
  simp only [swapAt]
  rw [List.getD_eq_getElem _ _ hi, List.getD_eq_getElem _ _ hj]
  rw [List.count_set _ _ _ _ (by simpa using hj), List.count_set _ _ _ _ hi]
  have h1 := List.boole_getElem_le_count a idx i hi
  have h2 := List.boole_getElem_le_count a idx j hj
  rw [List.getElem_set]
  by_cases hij : i = j
  · subst hij
    simp only [if_true]
    split_ifs at h1 ⊢ <;> omega
  · rw [if_neg hij]
    split_ifs at h1 h2 ⊢ <;> omega

theorem shuffleLoop_perm {σ : Type} (gen : σ → σ × Nat) (n : Nat) (s : σ) (idx : List Nat)
    (hn : n < idx.length) (hw : n + 1 < W32) :
    ∃ r, shuffleLoop gen n s idx = some r ∧ r.Perm idx := by
  induction n generalizing s idx with
  | zero => exact ⟨idx, rfl, List.Perm.refl _⟩
  | succ i ih =>
    simp only [shuffleLoop]
    have hd : (i + 1 + 1) % W32 = i + 1 + 1 := Nat.mod_eq_of_lt hw
    rw [hd, if_neg (by omega)]
    have hj : (gen s).2 % (i + 1 + 1) < idx.length :=
      lt_of_lt_of_le (Nat.mod_lt _ (by omega)) (by omega)
    obtain ⟨r, hr, hp⟩ := ih (gen s).1 (swapAt idx (i + 1) ((gen s).2 % (i + 1 + 1)))
      (by rw [swapAt_length]; omega) (by omega)
    exact ⟨r, hr, hp.trans (swapAt_perm idx _ _ hn hj)⟩

theorem shuffled_perm (count stride : Nat) (scrambled : Bool) (hc : 0 < count) (hw : count < W32) :
    ∃ idx, shuffled count stride scrambled (List.range count) = some idx ∧
      idx.Perm (List.range count) ∧ (scrambled = false → idx = List.range count) := by
  cases scrambled with
  | false => exact ⟨List.range count, rfl, List.Perm.refl _, fun _ => rfl⟩
  | true =>
    obtain ⟨r, hr, hp⟩ := shuffleLoop_perm lcg (count - 1) (seedOf count stride) (List.range count)
      (by simp; omega) (by omega)
    exact ⟨r, by simpa [shuffled] using hr, hp, by simp⟩

/-! ## The chain written by `build_list` -/

theorem slotAddr_eq (base bytes stride count x : Nat) (hs : 16 ≤ stride)
    (hfit : count * stride ≤ bytes) (hb : base + bytes ≤ W64) (hx : x < count) :
    slotAddr base stride x = base + x * stride := by
  have h1 : (x + 1) * stride ≤ count * stride := Nat.mul_le_mul_right _ hx
  have h2 : (x + 1) * stride = x * stride + stride := by ring
  unfold slotAddr
  rw [Nat.mod_eq_of_lt (by omega)]

theorem slot_lt (base bytes stride count x : Nat) (hs : 16 ≤ stride)
    (hfit : count * stride ≤ bytes) (hx : x < count) :
    base + x * stride + 16 ≤ base + bytes := by
  have h1 : (x + 1) * stride ≤ count * stride := Nat.mul_le_mul_right _ hx
  have h2 : (x + 1) * stride = x * stride + stride := by ring
  omega

theorem slot_sep (base stride x y : Nat) (hs : 16 ≤ stride) (hxy : x ≠ y) :
    Sep (base + x * stride) (base + y * stride) := by
  unfold Sep
  rcases Nat.lt_or_gt_of_ne hxy with h | h
  · left
    have h1 : (x + 1) * stride ≤ y * stride := Nat.mul_le_mul_right _ h
    have h2 : (x + 1) * stride = x * stride + stride := by ring
    omega
  · right
    have h1 : (y + 1) * stride ≤ x * stride := Nat.mul_le_mul_right _ h
    have h2 : (y + 1) * stride = y * stride + stride := by ring
    omega

theorem linkAll_chain (m : Mem) (base bytes stride count : Nat) (idx : List Nat)
    (hperm : idx.Perm (List.range count)) (hc : 0 < count) (hs : 16 ≤ stride)
    (hfit : count * stride ≤ bytes) (hb : base + bytes ≤ W64) :
    (linkAll m base stride idx).1 = base + idx.getD 0 0 * stride ∧
      ChainOf (linkAll m base stride idx).2 base stride idx := by
  have hmem : ∀ x ∈ idx, x < count := fun x hx => List.mem_range.mp (hperm.mem_iff.mp hx)
  have hlen : idx.length = count := by simpa using hperm.length_eq
  have hnd : idx.Nodup := hperm.nodup_iff.mpr (List.nodup_range count)
  have haddr : ∀ x ∈ idx, slotAddr base stride x = base + x * stride :=
    fun x hx => slotAddr_eq base bytes stride count x hs hfit hb (hmem x hx)
  cases idx with
  | nil => simp at hlen; omega
  | cons a rest =>
    have hsep : (slotAddr base stride a :: rest.map (slotAddr base stride)).Pairwise Sep := by
      rw [← List.map_cons, List.pairwise_map]
      refine List.Pairwise.imp_of_mem ?_ hnd
      intro x y hx hy hxy
      rw [haddr x hx, haddr y hy]
      exact slot_sep base stride x y hs hxy
    have hget : ∀ k, k < (a :: rest).length →
        (slotAddr base stride a :: rest.map (slotAddr base stride)).getD k 0 =
          base + (a :: rest).getD k 0 * stride := by
      intro k hk
      rw [← List.map_cons, List.getD_eq_getElem _ _ (by simpa using hk),
        List.getD_eq_getElem _ _ hk, List.getElem_map]
      exact haddr _ (List.getElem_mem _)
    have h0 := hget 0 (by simp)
    simp only [List.getD_cons_zero] at h0
    refine ⟨h0, ?_⟩
    intro k hk
    have hcc : (linkAll m base stride (a :: rest)).2 =
        closeChain base stride rest (slotAddr base stride a) (slotAddr base stride a) m := rfl
    rw [hcc]
    have key := closeChain_next base stride rest (slotAddr base stride a)
      (slotAddr base stride a) m hsep k (by simpa using hk)
    rw [hget k hk] at key
    refine ⟨?_, key.2⟩
    rw [key.1]
    have hlt : ∀ j, j < (a :: rest).length → (base + (a :: rest).getD j 0 * stride) % W64 =
        base + (a :: rest).getD j 0 * stride := by
      intro j hj
      apply Nat.mod_eq_of_lt
      have := slot_lt base bytes stride count ((a :: rest).getD j 0) hs hfit
        (hmem _ (by rw [List.getD_eq_getElem _ _ hj]; exact List.getElem_mem _))
      omega
    by_cases hk1 : k + 1 < (a :: rest).length
    · rw [if_pos (by simpa using hk1), hget (k + 1) hk1, Nat.mod_eq_of_lt hk1]
      exact hlt (k + 1) hk1
    · rw [if_neg (by simpa using hk1)]
      have hke : k + 1 = (a :: rest).length := by omega
      rw [hke, Nat.mod_self, h0]
      exact hlt 0 (by simp)

theorem indexVector_eq (fuel count stride : Nat) (scrambled : Bool) (hw : count < W32)
    (hf : count < fuel) :
    indexVector fuel count stride scrambled = shuffled count stride scrambled (List.range count) := by
  unfold indexVector
  rw [initLoop_spec count hw fuel 0 _ (by omega) (by omega) (by simp) (by intro k hk; omega)]

theorem indexVector_ok (fuel count stride : Nat) (scrambled : Bool) (hc : 0 < count)
    (hw : count < W32) (hf : count < fuel) :
    ∃ idx, indexVector fuel count stride scrambled = some idx ∧
      idx.Perm (List.range count) ∧ (scrambled = false → idx = List.range count) := by
  obtain ⟨idx, h1, h2, h3⟩ := shuffled_perm count stride scrambled hc hw
  exact ⟨idx, by rw [indexVector_eq fuel count stride scrambled hw hf, h1], h2, h3⟩

theorem indexVector_none (fuel count stride : Nat) (scrambled : Bool) (hw : W32 ≤ count) :
    indexVector fuel count stride scrambled = none := by
  unfold indexVector
  rw [initLoop_diverges count hw fuel 0 _ (by simp [W32])]

theorem build_list_ok (fuel : Nat) (m : Mem) (base bytes stride : Nat) (scrambled : Bool)
    (hs : 16 ≤ stride) (hc : 2 ≤ bytes / stride) (hw : bytes / stride < W32)
    (hb : base + bytes ≤ W64) (hf : bytes / stride < fuel) :
    ∃ idx m', indexVector fuel (bytes / stride) stride scrambled = some idx ∧
      idx.Perm (List.range (bytes / stride)) ∧
      (scrambled = false → idx = List.range (bytes / stride)) ∧
      build_list fuel m base bytes stride scrambled =
        some (base + idx.getD 0 0 * stride, m') ∧
      m' = (linkAll m base stride idx).2 ∧
      ChainOf m' base stride idx := by
  obtain ⟨idx, h1, h2, h3⟩ := indexVector_ok fuel (bytes / stride) stride scrambled
    (by omega) hw hf
  have hfit : bytes / stride * stride ≤ bytes := Nat.div_mul_le_self bytes stride
  obtain ⟨h4, h5⟩ := linkAll_chain m base bytes stride (bytes / stride) idx h2 (by omega) hs
    hfit hb
  refine ⟨idx, (linkAll m base stride idx).2, h1, h2, h3, ?_, rfl, h5⟩
  unfold build_list
  rw [if_neg (by simp [sizeofNode]; omega), if_neg (by omega), h1, ← h4]

theorem walk_chain (m : Mem) (base stride : Nat) (idx : List Nat) (hch : ChainOf m base stride idx)
    (k j : Nat) (hj : j < idx.length) :
    walk m k (base + idx.getD j 0 * stride) =
      base + idx.getD ((j + k) % idx.length) 0 * stride := by
  induction k generalizing j with
  | zero => simp [walk, Nat.mod_eq_of_lt hj]
  | succ k ih =>
    simp only [walk]
    rw [(hch j hj).1, ih _ (Nat.mod_lt _ (by omega))]
    congr 3
    rw [Nat.add_mod, Nat.mod_mod, ← Nat.add_mod]
    congr 1
    omega

theorem initLoop_fuel_mono (count fuel extra i : Nat) (idx r : List Nat)
    (h : initLoop count fuel i idx = some r) : initLoop count (fuel + extra) i idx = some r := by
  induction fuel generalizing i idx with
  | zero => simp [initLoop] at h
  | succ fuel ih =>
    rw [Nat.add_right_comm]
    simp only [initLoop] at h ⊢
    by_cases hlt : i < count
    · rw [if_pos hlt] at h ⊢
      exact ih _ _ h
    · rw [if_neg hlt] at h ⊢
      exact h

theorem build_list_fuel_mono (fuel extra : Nat) (m : Mem) (base bytes stride : Nat)
    (scrambled : Bool) (r : Nat × Mem)
    (h : build_list fuel m base bytes stride scrambled = some r) :
    build_list (fuel + extra) m base bytes stride scrambled = some r := by
  unfold build_list at h ⊢
  by_cases h1 : stride < sizeofNode
  · rw [if_pos h1] at h ⊢
    exact h
  · rw [if_neg h1] at h ⊢
    by_cases h2 : bytes / stride < 2
    · rw [if_pos h2] at h ⊢
      exact h
    · rw [if_neg h2] at h ⊢
      unfold indexVector at h ⊢
      cases hi : initLoop (bytes / stride) fuel 0 (List.replicate (bytes / stride) 0) with
      | none => rw [hi] at h; simp at h
      | some idx0 =>
        rw [hi] at h
        rw [initLoop_fuel_mono _ _ extra _ _ _ hi]
        exact h

theorem build_list_success (fuel : Nat) (m : Mem) (base bytes stride : Nat) (scrambled : Bool)
    (p : Nat) (m' : Mem) (h : build_list fuel m base bytes stride scrambled = some (p, m'))
    (hp : p ≠ 0) : 16 ≤ stride ∧ 2 ≤ bytes / stride ∧ bytes / stride < W32 := by
  unfold build_list at h
  by_cases h1 : stride < sizeofNode
  · rw [if_pos h1] at h
    simp only [Option.some.injEq, Prod.mk.injEq] at h
    exact absurd h.1.symm hp
  · rw [if_neg h1] at h
    by_cases h2 : bytes / stride < 2
    · rw [if_pos h2] at h
      simp only [Option.some.injEq, Prod.mk.injEq] at h
      exact absurd h.1.symm hp
    · rw [if_neg h2] at h
      refine ⟨by simpa [sizeofNode] using h1, by omega, ?_⟩
      by_contra hw
      rw [indexVector_none _ _ _ _ (by omega)] at h
      simp at h

theorem build_list_null_of (fuel : Nat) (m : Mem) (base bytes stride : Nat) (scrambled : Bool)
    (h : stride < sizeofNode ∨ bytes / stride < 2) :
    build_list fuel m base bytes stride scrambled = some (0, m) := by
  unfold build_list
  by_cases h1 : stride < sizeofNode
  · rw [if_pos h1]
  · rw [if_neg h1, if_pos (h.resolve_left h1)]

theorem build_list_none_of (fuel : Nat) (m : Mem) (base bytes stride : Nat) (scrambled : Bool)
    (hs : sizeofNode ≤ stride) (hw : W32 ≤ bytes / stride) :
    build_list fuel m base bytes stride scrambled = none := by
  unfold build_list
  have hW : (2 : Nat) ≤ W32 := by decide
  rw [if_neg (by omega), if_neg (by omega), indexVector_none _ _ _ _ hw]

/-! ## The shuffle loop: reachable orderings -/

theorem swapAt_getElem? (idx : List Nat) (i j k : Nat) (hi : i < idx.length)
    (hj : j < idx.length) :
    (swapAt idx i j)[k]? =
      if k = j then idx[i]? else if k = i then idx[j]? else idx[k]? := by
  unfold swapAt
  rw [List.getD_eq_getElem _ _ hi, List.getD_eq_getElem _ _ hj, List.getElem?_set,
    List.getElem?_set]
  by_cases hkj : k = j
  · subst hkj
    simp [hi, hj]
  · rw [if_neg hkj, if_neg (fun h => hkj h.symm)]
    by_cases hki : k = i
    · subst hki
      simp [hi, hj]
    · rw [if_neg hki, if_neg (fun h => hki h.symm)]

theorem swapAt_nodup (idx : List Nat) (i j : Nat) (hi : i < idx.length) (hj : j < idx.length)
    (hnd : idx.Nodup) : (swapAt idx i j).Nodup :=
  (swapAt_perm idx i j hi hj).nodup_iff.mpr hnd

theorem shuffleLoop_replay_step (n j : Nat) (js idx : List Nat) (hw : n + 1 + 1 < W32)
    (hj : j ≤ n + 1) :
    shuffleLoop replay (n + 1) (j :: js) idx = shuffleLoop replay n js (swapAt idx (n + 1) j) := by
  simp only [shuffleLoop, replay, List.tail_cons, List.headD_cons]
  rw [Nat.mod_eq_of_lt hw, if_neg (by omega), Nat.mod_eq_of_lt (by omega)]

theorem shuffleLoop_untouched {σ : Type} (gen : σ → σ × Nat) (n : Nat) (s : σ)
    (idx r : List Nat) (hn : n < idx.length) (hw : n + 1 < W32)
    (h : shuffleLoop gen n s idx = some r) (k : Nat) (hk : n < k) : r[k]? = idx[k]? := by
  induction n generalizing s idx with
  | zero =>
    simp only [shuffleLoop, Option.some.injEq] at h
    rw [h]
  | succ i ih =>
    simp only [shuffleLoop] at h
    rw [Nat.mod_eq_of_lt hw, if_neg (by omega)] at h
    have hj : (gen s).2 % (i + 1 + 1) < i + 1 + 1 := Nat.mod_lt _ (by omega)
    rw [ih _ _ (by rw [swapAt_length]; omega) (by omega) h (by omega),
      swapAt_getElem? idx _ _ k hn (by omega), if_neg (by omega), if_neg (by omega)]

theorem eq_of_perm_of_tail_eq (l idx : List Nat) (hp : l.Perm idx)
    (ht : ∀ k, 0 < k → l[k]? = idx[k]?) : l = idx := by
  cases l with
  | nil => exact (List.perm_nil.mp hp.symm).symm
  | cons a t =>
    cases idx with
    | nil => exact absurd (List.perm_nil.mp hp) (by simp)
    | cons b t' =>
      have htt : t = t' := by
        apply List.ext_getElem?
        intro k
        simpa using ht (k + 1) (by omega)
      subst htt
      have := hp.sum_eq
      simp only [List.sum_cons] at this
      have hab : a = b := by omega
      rw [hab]

theorem shuffleLoop_reaches (n : Nat) (idx l : List Nat) (hn : n < idx.length)
    (hw : n + 1 < W32) (hnd : idx.Nodup) (hp : l.Perm idx)
    (ht : ∀ k, n < k → l[k]? = idx[k]?) :
    ∃ js, IndexSeq n js ∧ shuffleLoop replay n js idx = some l := by
  induction n generalizing idx with
  | zero =>
    refine ⟨[], rfl, ?_⟩
    simp only [shuffleLoop]
    rw [eq_of_perm_of_tail_eq l idx hp ht]
  | succ n ih =>
    have hlen : l.length = idx.length := hp.length_eq
    have hln : n + 1 < l.length := by omega
    have hin : l[n + 1] ∈ idx := hp.mem_iff.mp (List.getElem_mem _)
    obtain ⟨j, hjlen, hj⟩ := List.getElem_of_mem hin
    have hlnd : l.Nodup := hp.nodup_iff.mpr hnd
    have hjn : j ≤ n + 1 := by
      by_contra hgt
      have h1 := ht j (by omega)
      rw [List.getElem?_eq_getElem (by omega), List.getElem?_eq_getElem hjlen,
        Option.some.injEq, hj] at h1
      have := (List.Nodup.getElem_inj_iff hlnd).mp h1
      omega
    obtain ⟨js, hjs, hrun⟩ := ih (swapAt idx (n + 1) j)
      (by rw [swapAt_length]; omega) (by omega) (swapAt_nodup idx _ _ hn hjlen hnd)
      (hp.trans (swapAt_perm idx _ _ hn hjlen).symm)
      (by
        intro k hk
        rw [swapAt_getElem? idx _ _ k hn hjlen]
        by_cases hkj : k = j
        · subst hkj
          have hkn : k = n + 1 := by omega
          subst hkn
          rw [if_pos rfl, List.getElem?_eq_getElem hln, List.getElem?_eq_getElem hjlen, hj]
        · rw [if_neg hkj]
          by_cases hkn : k = n + 1
          · subst hkn
            rw [if_pos rfl, List.getElem?_eq_getElem hln, List.getElem?_eq_getElem hjlen, hj]
          · rw [if_neg hkn]
            exact ht k (by omega))
    exact ⟨j :: js, ⟨hjn, hjs⟩, by rw [shuffleLoop_replay_step n j js idx hw hjn]; exact hrun⟩

theorem shuffleLoop_unique (n : Nat) (idx l js1 js2 : List Nat) (hn : n < idx.length)
    (hw : n + 1 < W32) (hnd : idx.Nodup) (h1 : IndexSeq n js1) (h2 : IndexSeq n js2)
    (r1 : shuffleLoop replay n js1 idx = some l) (r2 : shuffleLoop replay n js2 idx = some l) :
    js1 = js2 := by
  induction n generalizing idx js1 js2 with
  | zero =>
    simp only [IndexSeq] at h1 h2
    rw [h1, h2]
  | succ n ih =>
    cases js1 with
    | nil => exact absurd h1 (by simp [IndexSeq])
    | cons a t1 =>
      cases js2 with
      | nil => exact absurd h2 (by simp [IndexSeq])
      | cons b t2 =>
        simp only [IndexSeq] at h1 h2
        rw [shuffleLoop_replay_step n a t1 idx hw h1.1] at r1
        rw [shuffleLoop_replay_step n b t2 idx hw h2.1] at r2
        have e1 := shuffleLoop_untouched replay n t1 _ l (by rw [swapAt_length]; omega)
          (by omega) r1 (n + 1) (by omega)
        have e2 := shuffleLoop_untouched replay n t2 _ l (by rw [swapAt_length]; omega)
          (by omega) r2 (n + 1) (by omega)
        rw [swapAt_getElem? idx _ _ _ hn (by omega)] at e1 e2
        have ha : idx[a]? = l[n + 1]? := by
          by_cases h : n + 1 = a
          · rw [if_pos h] at e1
            rw [← h]
            exact e1.symm
          · rw [if_neg h, if_pos rfl] at e1
            exact e1.symm
        have hb : idx[b]? = l[n + 1]? := by
          by_cases h : n + 1 = b
          · rw [if_pos h] at e2
            rw [← h]
            exact e2.symm
          · rw [if_neg h, if_pos rfl] at e2
            exact e2.symm
        have hab : a = b := by
          have := ha.trans hb.symm
          rw [List.getElem?_eq_getElem (by omega), List.getElem?_eq_getElem (by omega),
            Option.some.injEq] at this
          exact (List.Nodup.getElem_inj_iff hnd).mp this
        subst hab
        rw [ih _ t1 t2 (by rw [swapAt_length]; omega) (by omega)
          (swapAt_nodup idx _ _ hn (by omega) hnd) h1.2 h2.2 r1 r2]

theorem indexSeq_bounds (n : Nat) (js : List Nat) (h : IndexSeq n js) :
    js.length = n ∧ ∀ v ∈ js, v ≤ n := by
  induction n generalizing js with
  | zero =>
    simp only [IndexSeq] at h
    subst h
    simp
  | succ n ih =>
    cases js with
    | nil => exact absurd h (by simp [IndexSeq])
    | cons a t =>
      simp only [IndexSeq] at h
      obtain ⟨hl, hv⟩ := ih t h.2
      refine ⟨by simp [hl], ?_⟩
      intro v hv'
      rcases List.mem_cons.mp hv' with rfl | hm
      · exact h.1
      · exact Nat.le_succ_of_le (hv v hm)

theorem beyond_range (count : Nat) (l : List Nat) (hc : 0 < count)
    (hl : l.Perm (List.range count)) (k : Nat) (hk : count - 1 < k) :
    l[k]? = (List.range count)[k]? := by
  have h1 : l.length = count := by simpa using hl.length_eq
  have h2 : l.length ≤ k := by omega
  have h3 : (List.range count).length ≤ k := by simp; omega
  rw [List.getElem?_eq_none h2, List.getElem?_eq_none h3]

/-! ## The shuffle loop: how often an ordering is produced -/

theorem shuffleLoop_trap {σ : Type} (gen : σ → σ × Nat) (i : Nat) (s : σ) (idx : List Nat)
    (h : (i + 1 + 1) % W32 = 0) : shuffleLoop gen (i + 1) s idx = none := by
  simp only [shuffleLoop]
  rw [if_pos h]

theorem shuffleWith_three (a b : Nat) :
    shuffleWith 3 [a, b] = some (swapAt (swapAt [0, 1, 2] 2 (a % 3)) 1 (b % 2)) := by
  simp [shuffleWith, shuffleLoop, replay, W32, List.range, List.range.loop]

theorem shuffleWith_three_rev (a b : Nat) :
    shuffleWith 3 [a, b] = some [2, 1, 0] ↔ a % 3 = 0 ∧ b % 2 = 1 := by
  rw [shuffleWith_three]
  have h3 : a % 3 < 3 := Nat.mod_lt _ (by decide)
  have h2 : b % 2 < 2 := Nat.mod_lt _ (by decide)
  generalize a % 3 = x at h3
  generalize b % 2 = y at h2
  interval_cases x <;> interval_cases y <;> decide

theorem shuffleWith_three_id (a b : Nat) :
    shuffleWith 3 [a, b] = some [0, 1, 2] ↔ a % 3 = 2 ∧ b % 2 = 1 := by
  rw [shuffleWith_three]
  have h3 : a % 3 < 3 := Nat.mod_lt _ (by decide)
  have h2 : b % 2 < 2 := Nat.mod_lt _ (by decide)
  generalize a % 3 = x at h3
  generalize b % 2 = y at h2
  interval_cases x <;> interval_cases y <;> decide

theorem card_residue (r v : Nat) (hr : 0 < r) :
    ((Finset.range W32).filter (fun x => x % r = v % r)).card =
      W32 / r + if v % r < W32 % r then 1 else 0 := by
  have := Nat.count_modEq_card W32 hr v
  rw [Nat.count_eq_card_filter_range] at this
  exact this

theorem pairsProducing_eq (l : List Nat) (u v : Nat)
    (h : ∀ a b, shuffleWith 3 [a, b] = some l ↔ a % 3 = u % 3 ∧ b % 2 = v % 2) :
    pairsProducing l =
      (W32 / 3 + if u % 3 < W32 % 3 then 1 else 0) *
        (W32 / 2 + if v % 2 < W32 % 2 then 1 else 0) := by
  unfold pairsProducing
  rw [Finset.filter_congr (fun d _ => h d.1 d.2),
    Finset.filter_product (fun a => a % 3 = u % 3) (fun b => b % 2 = v % 2),
    Finset.card_product, card_residue 3 u (by decide), card_residue 2 v (by decide)]

theorem pairsProducing_rev : pairsProducing [2, 1, 0] = 1431655766 * 2147483648 := by
  rw [pairsProducing_eq [2, 1, 0] 0 1 (fun a b => shuffleWith_three_rev a b)]
  norm_num [W32]

theorem pairsProducing_id : pairsProducing [0, 1, 2] = 1431655765 * 2147483648 := by
  rw [pairsProducing_eq [0, 1, 2] 2 1 (fun a b => shuffleWith_three_id a b)]
  norm_num [W32]

/-! ## Timed traversals -/

theorem forBy4_spec {σ : Type} (body : σ → σ) (r fuel k : Nat) (s : σ) (hf : r < fuel)
    (hint : 4 * (k + r) < 2 ^ 31) :
    forBy4 body ((4 * (k + r) : Nat) : Int) fuel ((4 * k : Nat) : Int) s = some (body^[r] s) := by
  induction r generalizing fuel k s with
  | zero =>
    cases fuel with
    | zero => omega
    | succ f =>
      simp only [forBy4, Nat.add_zero, lt_self_iff_false, if_false, Function.iterate_zero, id]
  | succ r ih =>
    cases fuel with
    | zero => omega
    | succ f =>
      simp only [forBy4]
      rw [if_pos (by omega), if_pos (by omega)]
      have h1 : ((4 * k : Nat) : Int) + 4 = ((4 * (k + 1) : Nat) : Int) := by omega
      have h2 : 4 * (k + (r + 1)) = 4 * (k + 1 + r) := by omega
      rw [h1, h2, ih f (k + 1) (body s) (by omega) (by omega), Function.iterate_succ_apply]

theorem chase4_iterate (m : Mem) (n p : Nat) :
    chase4^[n] (m, p) = (m, walk m (4 * n) p) := by
  induction n generalizing p with
  | zero => rfl
  | succ n ih =>
    rw [Function.iterate_succ_apply]
    simp only [chase4]
    rw [ih, show 4 * (n + 1) = 4 * n + 1 + 1 + 1 + 1 by omega]
    simp only [walk]

theorem forBy4_chase (m : Mem) (head N fuel : Nat) (h4 : 4 ∣ N) (hint : N < 2 ^ 31)
    (hf : N / 4 < fuel) :
    forBy4 chase4 (N : Int) fuel 0 (m, head) = some (m, walk m N head) := by
  obtain ⟨r, rfl⟩ := h4
  have := forBy4_spec chase4 r fuel 0 (m, head) (by omega) (by omega)
  simp only [Nat.zero_add, Nat.mul_zero, Nat.cast_zero] at this
  rw [this, chase4_iterate]

theorem toU64_natCast (N : Nat) (h : N < W64) : toU64 (N : Int) = N := by
  unfold toU64
  have : ((N : Int) % (W64 : Int)) = (N : Int) := Int.emod_eq_of_lt (by omega) (by omega)
  rw [this]
  simp

theorem trash_caches_mem (m : Mem) (buf bytes : Nat) : (trash_caches m buf bytes).1 = m := by
  unfold trash_caches
  generalize List.range (bytes / 8) = l
  generalize (0 : Nat) = sum
  induction l generalizing sum with
  | nil => rfl
  | cons i rest ih =>
    simp only [List.foldl_cons]
    exact ih _

theorem dep_walk_spec (clock : Nat → Nat) (fuel : Nat) (m : Mem) (tick head N : Nat)
    (hN : 0 < N) (h4 : 4 ∣ N) (hint : N < 2 ^ 31) (hf : N / 4 < fuel) :
    dep_walk_cy_per_load clock fuel m tick head (N : Int) =
      some ⟨sub64 (clock (tick + 1) % W64) (clock tick % W64) / N, some (walk m N head), m,
        tick + 2⟩ := by
  unfold dep_walk_cy_per_load
  simp only [rdtsc_serialized]
  rw [forBy4_chase m head N fuel h4 hint hf]
  have hW : N < W64 := lt_trans hint (by decide)
  simp only [toU64_natCast N hW]
  rw [if_neg (by omega)]

theorem p1_dep_spec (clock : Nat → Nat) (fuel : Nat) (m : Mem) (tick : Nat)
    (base bytes stride : Nat) (scrambled : Bool) (head : Nat) (m' : Mem)
    (hb : build_list fuel m base bytes stride scrambled = some (head, m')) (hh : head ≠ 0)
    (hf : 64 < fuel) :
    p1_dep_cy_per_load clock fuel m tick base bytes stride scrambled =
      some ⟨sub64 (clock (tick + 1) % W64) (clock tick % W64) / 256, some (walk m' 256 head),
        m', tick + 2⟩ := by
  unfold p1_dep_cy_per_load
  rw [hb]
  simp only [rdtsc_serialized, kLoadsP1]
  rw [if_neg hh, trash_caches_mem]
  have h := forBy4_chase m' head 256 fuel (by decide) (by decide) (by omega)
  have hu := toU64_natCast 256 (by decide)
  simp only [Nat.cast_ofNat] at h hu
  simp only [h, hu]

theorem naive4_iterate_mem (step n : Nat) (s : Mem × Nat × Nat) :
    ((naive4 step)^[n] s).1 = s.1 := by
  induction n generalizing s with
  | zero => rfl
  | succ n ih =>
    rw [Function.iterate_succ_apply, ih]
    rfl

theorem p1_naive_spec (clock : Nat → Nat) (fuel : Nat) (m : Mem) (tick : Nat)
    (base bytes stride : Nat) (hf : 64 < fuel) :
    p1_naive_cy_per_load clock fuel m tick base bytes stride =
      some ⟨sub64 (clock (tick + 1) % W64) (clock tick % W64) / 256, none, m, tick + 2⟩ := by
  unfold p1_naive_cy_per_load
  simp only [rdtsc_serialized, kLoadsP1, trash_caches_mem]
  have h := forBy4_spec (naive4 (stride / 8)) 64 fuel 0 (m, base, 0) hf (by decide)
  have hu := toU64_natCast 256 (by decide)
  simp only [Nat.zero_add, Nat.mul_zero, Nat.cast_zero, Nat.reduceMul, Nat.cast_ofNat] at h hu
  simp only [h, hu, naive4_iterate_mem]

theorem forBy4_chase_mem (count : Int) (n : Nat) (i : Int) (s0 s1 : Mem × Nat)
    (h : forBy4 chase4 count n i s0 = some s1) : s1.1 = s0.1 := by
  induction n generalizing i s0 with
  | zero => exact Option.noConfusion h
  | succ n ih =>
    simp only [forBy4] at h
    split_ifs at h with hlt hov
    · have := ih _ _ h
      exact this
    · rw [← Option.some.inj h]

/-! ## The stride sweep -/

theorem p1_stride_facts (lg : Nat) (h4 : 4 ≤ lg) (h12 : lg ≤ 12) :
    2 ^ lg % W64 = 2 ^ lg ∧ 16 ≤ 2 ^ lg ∧ 2 ≤ 64 * 1024 / 2 ^ lg ∧
      64 * 1024 / 2 ^ lg ≤ 4096 := by
  interval_cases lg <;> refine ⟨by decide, by decide, by decide, by decide⟩

theorem p1_build_nonnull (fuel : Nat) (m : Mem) (buf lg : Nat) (scrambled : Bool)
    (hbuf : ValidBuf buf kBufSize) (hf : 4096 < fuel) (h4 : 4 ≤ lg) (h12 : lg ≤ 12) :
    ∃ head m', build_list fuel m buf (64 * 1024) (2 ^ lg) scrambled = some (head, m') ∧
      head ≠ 0 := by
  obtain ⟨-, h16, h2, hle⟩ := p1_stride_facts lg h4 h12
  have hk : 64 * 1024 ≤ kBufSize := by decide
  have hW : (4096 : Nat) < W32 := by decide
  obtain ⟨idx, m', -, -, -, hbl, -, -⟩ := build_list_ok fuel m buf (64 * 1024) (2 ^ lg)
    scrambled h16 h2 (by omega) (by have := hbuf.2; omega) (by omega)
  refine ⟨_, m', hbl, ?_⟩
  have := hbuf.1
  omega

theorem p1Loop_spec (clock : Nat → Nat) (fuel buf : Nat) (hbuf : ValidBuf buf kBufSize)
    (hf : 4096 < fuel) (d n lg : Nat) (rows : List Row) (m : Mem) (tick : Nat)
    (hd : lg + d = 13) (h4 : 4 ≤ lg) (hn : d < n) :
    ∃ rows' m', p1Loop clock fuel buf n lg rows m tick =
        some (rows ++ rows', m', tick + 6 * d) ∧
      rows'.map Row.stride = (List.range' lg d).map (fun k => 2 ^ k) := by
  induction d generalizing n lg rows m tick with
  | zero =>
    cases n with
    | zero => omega
    | succ n =>
      refine ⟨[], m, ?_, rfl⟩
      simp only [p1Loop]
      rw [if_neg (by omega)]
      simp
  | succ d ih =>
    cases n with
    | zero => omega
    | succ n =>
      have h12 : lg ≤ 12 := by omega
      obtain ⟨hmod, -, -, -⟩ := p1_stride_facts lg h4 h12
      obtain ⟨hd1, m1, hb1, hn1⟩ := p1_build_nonnull fuel m buf lg false hbuf hf h4 h12
      obtain ⟨hd2, m2, hb2, hn2⟩ := p1_build_nonnull fuel m1 buf lg true hbuf hf h4 h12
      simp only [p1Loop]
      rw [if_pos h12, hmod, p1_naive_spec clock fuel m tick buf kBufSize (2 ^ lg) (by omega)]
      simp only []
      rw [p1_dep_spec clock fuel m (tick + 2) buf (64 * 1024) (2 ^ lg) false hd1 m1 hb1 hn1
        (by omega)]
      simp only []
      rw [p1_dep_spec clock fuel m1 (tick + 2 + 2) buf (64 * 1024) (2 ^ lg) true hd2 m2 hb2 hn2
        (by omega)]
      simp only []
      obtain ⟨rows', m', hrun, hstr⟩ := ih n (lg + 1)
        (rows ++ [⟨2 ^ lg, sub64 (clock (tick + 1) % W64) (clock tick % W64) / 256,
          sub64 (clock (tick + 2 + 1) % W64) (clock (tick + 2) % W64) / 256,
          sub64 (clock (tick + 2 + 2 + 1) % W64) (clock (tick + 2 + 2) % W64) / 256⟩]) m2
        (tick + 2 + 2 + 2) (by omega) (by omega) (by omega)
      refine ⟨⟨2 ^ lg, sub64 (clock (tick + 1) % W64) (clock tick % W64) / 256,
          sub64 (clock (tick + 2 + 1) % W64) (clock (tick + 2) % W64) / 256,
          sub64 (clock (tick + 2 + 2 + 1) % W64) (clock (tick + 2 + 2) % W64) / 256⟩ :: rows',
        m', ?_, ?_⟩
      · rw [hrun]
        simp only [List.append_assoc, List.singleton_append]
        congr 3
        omega
      · simp only [List.map_cons, List.range'_succ, hstr]

/-! ## Walking the chain written by `build_list` -/

theorem toU64_of_neg (x : Int) (h1 : -(2 : Int) ^ 31 ≤ x) (h2 : x < 0) :
    (toU64 x : Int) = (W64 : Int) + x := by
  unfold toU64
  have hW : (W64 : Int) = 18446744073709551616 := by simp [W64]
  have hx : -(2 : Int) ^ 31 = -2147483648 := by norm_num
  rw [hx] at h1
  have hmod : x % (W64 : Int) = (W64 : Int) + x := by
    rw [hW]
    omega
  rw [hmod, Int.toNat_of_nonneg (by rw [hW]; omega)]

theorem pow_two_dvd_four (lg : Nat) (h : 4 ≤ lg) : 4 ∣ 2 ^ lg := by
  have : (2 : Nat) ^ 2 ∣ 2 ^ lg := pow_dvd_pow 2 (by omega)
  simpa using this

theorem p2Loop_spec (clock : Nat → Nat) (fuel buf head L : Nat) (m1 : Mem) (hL : 16 ≤ L)
    (hL2 : L ≤ 2 ^ 25) (hf : 2 ^ 20 < fuel) (d n lg : Nat) (rows : List P2Row) (tick : Nat)
    (hd : lg + d = 24) (h4 : 4 ≤ lg) (hn : d < n) :
    ∃ rows' k, p2Loop clock fuel buf head (L : Int) n lg rows m1 tick =
        some (rows ++ rows', m1, tick + 8 * k) ∧
      rows'.map P2Row.lg = List.range' lg k ∧
      (∀ lg', lg ≤ lg' → (lg' < lg + k ↔ 2 ^ lg' * L ≤ kBufSize)) ∧
      ∀ row ∈ rows', RowWalks m1 head L row := by
  have hB : kBufSize = 2 ^ 26 := by decide
  have hmono : ∀ a b : Nat, a ≤ b → 2 ^ a * L ≤ 2 ^ b * L := fun a b hab =>
    Nat.mul_le_mul_right L (Nat.pow_le_pow_right (by decide) hab)
  induction d generalizing n lg rows tick with
  | zero =>
    cases n with
    | zero => omega
    | succ n =>
      have hlg : lg = 24 := by omega
      subst hlg
      have hbig : kBufSize < 2 ^ 24 * L := by
        have := Nat.mul_le_mul_left (2 ^ 24) hL
        rw [hB]
        omega
      have hprod : toU64 ((2 ^ 24 : Nat) : Int) * toU64 (L : Int) % W64 = 2 ^ 24 * L := by
        rw [toU64_natCast _ (by decide), toU64_natCast L (lt_of_le_of_lt hL2 (by decide))]
        apply Nat.mod_eq_of_lt
        have := Nat.mul_le_mul_left (2 ^ 24) hL2
        have hW : W64 = 2 ^ 64 := rfl
        rw [hW]
        omega
      refine ⟨[], 0, ?_, rfl, ?_, by simp⟩
      · simp only [p2Loop]
        rw [if_neg (by omega), hprod, if_pos hbig]
        simp
      · intro lg' hlg'
        have := hmono 24 lg' hlg'
        constructor
        · intro h; omega
        · intro h; omega
  | succ d ih =>
    cases n with
    | zero => omega
    | succ n =>
      have hlg : lg ≤ 23 := by omega
      have hx : 2 ^ lg ≤ 2 ^ 23 := Nat.pow_le_pow_right (by decide) hlg
      have hprod : toU64 ((2 ^ lg : Nat) : Int) * toU64 (L : Int) % W64 = 2 ^ lg * L := by
        rw [toU64_natCast _ (lt_of_le_of_lt hx (by decide)),
          toU64_natCast L (lt_of_le_of_lt hL2 (by decide))]
        apply Nat.mod_eq_of_lt
        have := Nat.mul_le_mul hx hL2
        have hW : W64 = 2 ^ 64 := rfl
        rw [hW]
        omega
      simp only [p2Loop]
      rw [if_neg (by omega), hprod]
      by_cases hb : 2 ^ lg * L > kBufSize
      · rw [if_pos hb]
        refine ⟨[], 0, by simp, rfl, ?_, by simp⟩
        intro lg' hlg'
        have := hmono lg lg' hlg'
        constructor
        · intro h; omega
        · intro h; omega
      · rw [if_neg hb, trash_caches_mem]
        have h16 := Nat.mul_le_mul_left (2 ^ lg) hL
        have hx22 : 2 ^ lg ≤ 2 ^ 22 := by
          rw [hB] at hb
          omega
        have hpos : 0 < 2 ^ lg := Nat.pow_pos (by decide)
        have hwalk : ∀ tk, dep_walk_cy_per_load clock fuel m1 tk head ((2 ^ lg : Nat) : Int) =
            some ⟨sub64 (clock (tk + 1) % W64) (clock tk % W64) / 2 ^ lg,
              some (walk m1 (2 ^ lg) head), m1, tk + 2⟩ := fun tk =>
          dep_walk_spec clock fuel m1 tk head (2 ^ lg) hpos (pow_two_dvd_four lg h4)
            (lt_of_le_of_lt hx22 (by decide)) (by omega)
        rw [hwalk tick]
        simp only []
        rw [hwalk (tick + 2)]
        simp only []
        rw [hwalk (tick + 2 + 2)]
        simp only []
        rw [hwalk (tick + 2 + 2 + 2)]
        simp only []
        set row : P2Row := ⟨lg, ((2 ^ lg : Nat) : Int), 2 ^ lg * L,
            ⟨sub64 (clock (tick + 1) % W64) (clock tick % W64) / 2 ^ lg,
              some (walk m1 (2 ^ lg) head), m1, tick + 2⟩,
            ⟨sub64 (clock (tick + 2 + 1) % W64) (clock (tick + 2) % W64) / 2 ^ lg,
              some (walk m1 (2 ^ lg) head), m1, tick + 2 + 2⟩,
            ⟨sub64 (clock (tick + 2 + 2 + 1) % W64) (clock (tick + 2 + 2) % W64) / 2 ^ lg,
              some (walk m1 (2 ^ lg) head), m1, tick + 2 + 2 + 2⟩,
            ⟨sub64 (clock (tick + 2 + 2 + 2 + 1) % W64) (clock (tick + 2 + 2 + 2) % W64) /
                2 ^ lg,
              some (walk m1 (2 ^ lg) head), m1, tick + 2 + 2 + 2 + 2⟩⟩ with hrowdef
        obtain ⟨rows', k, hrun, hlgs, hiff, hrows⟩ := ih n (lg + 1) (rows ++ [row])
          (tick + 2 + 2 + 2 + 2) (by omega) (by omega) (by omega)
        refine ⟨row :: rows', k + 1, ?_, ?_, ?_, ?_⟩
        · rw [hrun]
          simp only [List.append_assoc, List.singleton_append]
          congr 3
          omega
        · simp only [List.map_cons, List.range'_succ, hlgs]
        · intro lg' hlg'
          by_cases he : lg' = lg
          · subst he
            constructor
            · intro _; omega
            · intro _; omega
          · have := hiff lg' (by omega)
            constructor
            · intro h; exact this.mp (by omega)
            · intro h; have := this.mpr h; omega
        · intro r hr
          rcases List.mem_cons.mp hr with he | hmem
          · rw [he]
            exact ⟨rfl, rfl, rfl, rfl, rfl, rfl, rfl, rfl, rfl, rfl⟩
          · exact hrows r hmem

theorem linesize_of_build (fuel : Nat) (m : Mem) (buf : Nat) (linesize : Int) (head : Nat)
    (m1 : Mem) (h1 : -(2 : Int) ^ 31 ≤ linesize) (h2 : linesize < (2 : Int) ^ 31)
    (hb : build_list fuel m buf kBufSize (toU64 linesize) true = some (head, m1))
    (hh : head ≠ 0) :
    linesize = ((linesize.toNat : Nat) : Int) ∧ toU64 linesize = linesize.toNat ∧
      16 ≤ linesize.toNat ∧ linesize.toNat ≤ 2 ^ 25 := by
  obtain ⟨hs, hc, -⟩ := build_list_success fuel m buf kBufSize _ true head m1 hb hh
  have hB : kBufSize = 67108864 := by decide
  have hW : (W64 : Int) = 18446744073709551616 := by simp [W64]
  have e31 : (2 : Int) ^ 31 = 2147483648 := by norm_num
  rw [e31] at h1 h2
  have hnn : 0 ≤ linesize := by
    by_contra hneg
    have hcast := toU64_of_neg linesize (by rw [e31]; exact h1) (by omega)
    have hbig : kBufSize < toU64 linesize := by
      have : ((kBufSize : Nat) : Int) < (toU64 linesize : Int) := by
        rw [hcast, hW, hB]
        push_cast
        omega
      exact_mod_cast this
    rw [Nat.div_eq_of_lt hbig] at hc
    omega
  have hcast : linesize = ((linesize.toNat : Nat) : Int) := (Int.toNat_of_nonneg hnn).symm
  have hu : toU64 linesize = linesize.toNat := by
    conv_lhs => rw [hcast]
    apply toU64_natCast
    have : linesize.toNat < 2147483648 := by omega
    exact lt_trans this (by decide)
  rw [hu] at hs hc
  refine ⟨hcast, hu, hs, ?_⟩
  by_contra hgt
  have : kBufSize / linesize.toNat < 2 := by
    rw [Nat.div_lt_iff_lt_mul (by omega), hB]
    omega
  omega

theorem run_p2_spec (clock : Nat → Nat) (fuel : Nat) (m : Mem) (tick buf : Nat)
    (linesize : Int) (head : Nat) (m1 : Mem) (h1 : -(2 : Int) ^ 31 ≤ linesize)
    (h2 : linesize < (2 : Int) ^ 31)
    (hb : build_list fuel m buf kBufSize (toU64 linesize) true = some (head, m1))
    (hh : head ≠ 0) (hf : 2 ^ 20 < fuel) :
    ∃ rows k, run_p2 clock fuel m tick buf linesize = some ⟨rows, false, m1, tick + 8 * k⟩ ∧
      rows.map P2Row.lg = List.range' 4 k ∧
      (∀ lg, 4 ≤ lg → (lg < 4 + k ↔ 2 ^ lg * linesize.toNat ≤ kBufSize)) ∧
      ∀ row ∈ rows, RowWalks m1 head linesize.toNat row := by
  obtain ⟨hcast, -, hL, hL2⟩ := linesize_of_build fuel m buf linesize head m1 h1 h2 hb hh
  obtain ⟨rows, k, hrun, hlgs, hiff, hrows⟩ := p2Loop_spec clock fuel buf head linesize.toNat
    m1 hL hL2 hf 20 fuel 4 [] tick (by decide) (by decide) (by omega)
  refine ⟨rows, k, ?_, hlgs, hiff, hrows⟩
  unfold run_p2
  rw [hb]
  simp only []
  rw [if_neg hh]
  rw [← hcast] at hrun
  rw [hrun]
  simp

theorem run_p2_failed (clock : Nat → Nat) (fuel : Nat) (m : Mem) (tick buf : Nat)
    (linesize : Int) (m1 : Mem)
    (hb : build_list fuel m buf kBufSize (toU64 linesize) true = some (0, m1)) :
    run_p2 clock fuel m tick buf linesize = some ⟨[], true, m1, tick⟩ := by
  unfold run_p2
  rw [hb]
  simp

theorem p1_dep_failed (clock : Nat → Nat) (fuel : Nat) (m : Mem) (tick : Nat)
    (base bytes stride : Nat) (scrambled : Bool) (m1 : Mem)
    (hb : build_list fuel m base bytes stride scrambled = some (0, m1)) :
    p1_dep_cy_per_load clock fuel m tick base bytes stride scrambled =
      some ⟨0, none, m1, tick⟩ := by
  unfold p1_dep_cy_per_load
  rw [hb]
  simp

theorem build_list_small_linesize (fuel : Nat) (m : Mem) (buf : Nat) (linesize : Int)
    (h1 : -(2 : Int) ^ 31 ≤ linesize) (h2 : linesize < 16) :
    build_list fuel m buf kBufSize (toU64 linesize) true = some (0, m) := by
  apply build_list_null_of
  by_cases hnn : 0 ≤ linesize
  · left
    have hcast : linesize = ((linesize.toNat : Nat) : Int) := (Int.toNat_of_nonneg hnn).symm
    rw [hcast, toU64_natCast _ (by have : linesize.toNat < 16 := by omega
                                   exact lt_trans this (by decide))]
    simp only [sizeofNode]
    omega
  · right
    have hcast := toU64_of_neg linesize h1 (by omega)
    have hB : kBufSize = 67108864 := by decide
    have hW : (W64 : Int) = 18446744073709551616 := by simp [W64]
    have e31 : (2 : Int) ^ 31 = 2147483648 := by norm_num
    rw [e31] at h1
    have hbig : kBufSize < toU64 linesize := by
      have : ((kBufSize : Nat) : Int) < (toU64 linesize : Int) := by
        rw [hcast, hW, hB]
        push_cast
        omega
      exact_mod_cast this
    rw [Nat.div_eq_of_lt hbig]
    decide

/-! ## The claims about `build_list` -/

/-- C1 (amended): for every stride of at least 16 bytes, every extent whose slot
count `count = bytes / stride` satisfies `2 ≤ count < 2 ^ 32`, and both modes,
`build_list` returns, and the chain it wrote is a single cycle: the first
`count` nodes visited from the returned start are pairwise distinct slots among
the first `count` slots, the walk is back at the start after exactly `count`
steps and at no `k` with `0 < k < count`. -/
theorem build_list_single_cycle (fuel : Nat) (m : Mem) (base bytes stride : Nat)
    (scrambled : Bool) (hs : sizeofNode ≤ stride) (hc : 2 ≤ bytes / stride)
    (hw : bytes / stride < W32) (hbuf : ValidBuf base bytes) (hf : bytes / stride < fuel) :
    ∃ first m', build_list fuel m base bytes stride scrambled = some (first, m') ∧
      (∀ k, k < bytes / stride →
        ∃ s, s < bytes / stride ∧ walk m' k first = base + s * stride) ∧
      (∀ i j, i < j → j < bytes / stride → walk m' i first ≠ walk m' j first) ∧
      walk m' (bytes / stride) first = first ∧
      (∀ k, 0 < k → k < bytes / stride → walk m' k first ≠ first) := by
  obtain ⟨idx, m', -, hperm, -, hbl, -, hch⟩ :=
    build_list_ok fuel m base bytes stride scrambled hs hc hw hbuf.2 hf
  have hlen : idx.length = bytes / stride := by simpa using hperm.length_eq
  have hnd : idx.Nodup := hperm.nodup_iff.mpr (List.nodup_range _)
  have hmem : ∀ x ∈ idx, x < bytes / stride :=
    fun x hx => List.mem_range.mp (hperm.mem_iff.mp hx)
  have hwalk : ∀ k, walk m' k (base + idx.getD 0 0 * stride) =
      base + idx.getD (k % (bytes / stride)) 0 * stride := by
    intro k
    have := walk_chain m' base stride idx hch k 0 (by omega)
    rwa [Nat.zero_add, hlen] at this
  have hinj : ∀ i j, i < bytes / stride → j < bytes / stride → i ≠ j →
      base + idx.getD i 0 * stride ≠ base + idx.getD j 0 * stride := by
    intro i j hi hj hij heq
    have hs0 : 0 < stride := by simp [sizeofNode] at hs; omega
    have h1 : idx.getD i 0 = idx.getD j 0 :=
      Nat.eq_of_mul_eq_mul_right hs0 (Nat.add_left_cancel heq)
    rw [List.getD_eq_getElem idx 0 (show i < idx.length by omega),
      List.getD_eq_getElem idx 0 (show j < idx.length by omega)] at h1
    exact hij ((List.Nodup.getElem_inj_iff hnd).mp h1)
  refine ⟨_, m', hbl, ?_, ?_, ?_, ?_⟩
  · intro k hk
    refine ⟨idx.getD k 0, ?_, ?_⟩
    · apply hmem
      rw [List.getD_eq_getElem _ _ (by omega)]
      exact List.getElem_mem _
    · rw [hwalk, Nat.mod_eq_of_lt hk]
  · intro i j hij hj
    rw [hwalk, hwalk, Nat.mod_eq_of_lt hj, Nat.mod_eq_of_lt (by omega)]
    exact hinj i j (by omega) hj (by omega)
  · rw [hwalk, Nat.mod_self]
  · intro k hk0 hk
    rw [hwalk, Nat.mod_eq_of_lt hk]
    exact hinj k 0 hk (by omega) (by omega)

/-- Witness of C1: the scenario with stride 64 and extent 65536 (1024 slots). -/
theorem build_list_single_cycle_witness :
    ∃ first m', build_list 1025 zeroMem 4096 65536 64 true = some (first, m') ∧
      (∀ k, k < 65536 / 64 → ∃ s, s < 65536 / 64 ∧ walk m' k first = 4096 + s * 64) ∧
      (∀ i j, i < j → j < 65536 / 64 → walk m' i first ≠ walk m' j first) ∧
      walk m' (65536 / 64) first = first ∧
      (∀ k, 0 < k → k < 65536 / 64 → walk m' k first ≠ first) :=
  build_list_single_cycle 1025 zeroMem 4096 65536 64 true (by decide) (by decide)
    (by decide) ⟨by decide, by decide⟩ (by decide)

/-- Counterexample to C1 as stated: with stride 16 and extent `2 ^ 36` the slot
count is `2 ^ 32`, the 32-bit counter of the initialisation loop never reaches
it, and `build_list` returns no chain at all, whatever the number of loop
iterations allowed. -/
theorem build_list_single_cycle_fails :
    ValidBuf 4096 (2 ^ 36) ∧ sizeofNode ≤ 16 ∧ 2 ≤ 2 ^ 36 / 16 ∧
      ¬ ∃ fuel first m', build_list fuel zeroMem 4096 (2 ^ 36) 16 false = some (first, m') := by
  refine ⟨⟨by decide, by norm_num [W64]⟩, by decide, by norm_num, ?_⟩
  rintro ⟨fuel, first, m', h⟩
  rw [build_list_none_of fuel zeroMem 4096 (2 ^ 36) 16 false (by decide)
    (by norm_num [W32])] at h
  exact Option.noConfusion h

/-- C2 (amended): whenever the slot count is below `2 ^ 32` (or the stride is
below the node size), `build_list` returns, and it returns the null pointer if
and only if the stride is smaller than the 16-byte node record or
`bytes / stride < 2`, which for such a stride means `bytes < 2 * stride`; in
every other such case the returned start node is non-null. -/
theorem build_list_null_iff (fuel : Nat) (m : Mem) (base bytes stride : Nat)
    (scrambled : Bool) (hbuf : ValidBuf base bytes)
    (hw : sizeofNode ≤ stride → bytes / stride < W32) (hf : bytes / stride < fuel) :
    ∃ p m', build_list fuel m base bytes stride scrambled = some (p, m') ∧
      (p = 0 ↔ (stride < sizeofNode ∨ bytes / stride < 2)) ∧
      (p = 0 ↔ (stride < sizeofNode ∨ bytes < 2 * stride)) := by
  have harith : sizeofNode ≤ stride → (bytes / stride < 2 ↔ bytes < 2 * stride) := by
    intro hs
    have hpos : 0 < stride := lt_of_lt_of_le (by decide) hs
    rw [Nat.div_lt_iff_lt_mul hpos]
  by_cases h1 : stride < sizeofNode
  · exact ⟨0, m, build_list_null_of _ _ _ _ _ _ (Or.inl h1), by simp [h1], by simp [h1]⟩
  · by_cases h2 : bytes / stride < 2
    · exact ⟨0, m, build_list_null_of _ _ _ _ _ _ (Or.inr h2), by simp [h2],
        by simp [(harith (by omega)).mp h2]⟩
    · have hs : 16 ≤ stride := by simpa [sizeofNode] using h1
      obtain ⟨idx, m', -, -, -, hbl, -, -⟩ := build_list_ok fuel m base bytes stride scrambled
        hs (by omega) (hw (by simpa [sizeofNode] using hs)) hbuf.2 hf
      have hb := hbuf.1
      have hne : base + idx.getD 0 0 * stride ≠ 0 := by omega
      have h3 : ¬ bytes < 2 * stride := fun h => h2 ((harith (by omega)).mpr h)
      refine ⟨_, m', hbl, ?_, ?_⟩
      · exact ⟨fun h0 => absurd h0 hne, fun h => (h.elim (absurd · h1) (absurd · h2))⟩
      · exact ⟨fun h0 => absurd h0 hne, fun h => (h.elim (absurd · h1) (absurd · h3))⟩

/-- Witness of C2: an extent of `2 * stride - 1` bytes is refused. -/
theorem build_list_null_iff_witness :
    ∃ p m', build_list 2 zeroMem 4096 127 64 true = some (p, m') ∧
      (p = 0 ↔ (64 < sizeofNode ∨ 127 / 64 < 2)) ∧
      (p = 0 ↔ (64 < sizeofNode ∨ 127 < 2 * 64)) :=
  build_list_null_iff 2 zeroMem 4096 127 64 true ⟨by decide, by decide⟩
    (fun _ => by decide) (by decide)

/-- Counterexample to C2 as stated: with stride 16 and extent `2 ^ 36` neither
failure condition holds, yet neither null nor a start node is returned,
whatever the number of loop iterations allowed. -/
theorem build_list_null_iff_fails :
    ValidBuf 4096 (2 ^ 36) ∧ ¬ (16 < sizeofNode ∨ 2 ^ 36 / 16 < 2) ∧
      ∀ fuel, build_list fuel zeroMem 4096 (2 ^ 36) 16 true = none := by
  refine ⟨⟨by decide, by norm_num [W64]⟩,
    by rintro (h | h) <;> revert h <;> norm_num [sizeofNode], ?_⟩
  intro fuel
  exact build_list_none_of fuel zeroMem 4096 (2 ^ 36) 16 true (by decide) (by norm_num [W32])

/-- C3 (amended): in sequential mode, for every stride of at least 16 bytes and
every extent with `2 ≤ count = bytes / stride < 2 ^ 32`, `build_list` returns
slot 0 as the start and the next link of slot `k` points to slot
`(k + 1) % count`, for every `k < count`, slot `k` being the node at byte
offset `k * stride`. -/
theorem build_list_sequential (fuel : Nat) (m : Mem) (base bytes stride : Nat)
    (hs : sizeofNode ≤ stride) (hc : 2 ≤ bytes / stride) (hw : bytes / stride < W32)
    (hbuf : ValidBuf base bytes) (hf : bytes / stride < fuel) :
    ∃ m', build_list fuel m base bytes stride false = some (base + 0 * stride, m') ∧
      ∀ k, k < bytes / stride →
        nodeNext m' (base + k * stride) = base + (k + 1) % (bytes / stride) * stride := by
  obtain ⟨idx, m', -, -, hseq, hbl, -, hch⟩ :=
    build_list_ok fuel m base bytes stride false hs hc hw hbuf.2 hf
  have hidx := hseq rfl
  subst hidx
  have hget : ∀ k, k < bytes / stride → (List.range (bytes / stride)).getD k 0 = k := by
    intro k hk
    rw [List.getD_eq_getElem _ _ (by simpa using hk), List.getElem_range]
  refine ⟨m', ?_, ?_⟩
  · rw [hbl, hget 0 (by omega)]
  · intro k hk
    have := (hch k (by simpa using hk)).1
    rw [hget k hk, List.length_range, hget _ (Nat.mod_lt _ (by omega))] at this
    exact this

/-- Witness of C3: four slots of 16 bytes. -/
theorem build_list_sequential_witness :
    ∃ m', build_list 5 zeroMem 4096 64 16 false = some (4096 + 0 * 16, m') ∧
      ∀ k, k < 64 / 16 → nodeNext m' (4096 + k * 16) = 4096 + (k + 1) % (64 / 16) * 16 :=
  build_list_sequential 5 zeroMem 4096 64 16 (by decide) (by decide) (by decide)
    ⟨by decide, by decide⟩ (by decide)

/-- Counterexample to C3 as stated: with stride 32 and extent `2 ^ 37` the
sequential build returns nothing, so slot 0 is not returned as the start. -/
theorem build_list_sequential_fails :
    ValidBuf 4096 (2 ^ 37) ∧ sizeofNode ≤ 32 ∧ 2 ≤ 2 ^ 37 / 32 ∧
      ¬ ∃ fuel m', build_list fuel zeroMem 4096 (2 ^ 37) 32 false = some (4096 + 0 * 32, m') := by
  refine ⟨⟨by decide, by norm_num [W64]⟩, by decide, by norm_num, ?_⟩
  rintro ⟨fuel, m', h⟩
  rw [build_list_none_of fuel zeroMem 4096 (2 ^ 37) 32 false (by decide)
    (by norm_num [W32])] at h
  exact Option.noConfusion h

/-- C4: the scrambled link order is a function of the slot count and the stride
only.  For two calls with the same stride and the same `bytes / stride`,
whatever the two extents and the two prior memories, the shuffled index vectors
coincide, and either neither call returns, or both return null, or both return
the same non-null start and every slot has the same next link after both. -/
theorem build_list_deterministic (f1 f2 : Nat) (m1 m2 : Mem) (base b1 b2 stride : Nat)
    (hcount : b1 / stride = b2 / stride) (hv1 : ValidBuf base b1) (hv2 : ValidBuf base b2)
    (hf1 : b1 / stride < f1) (hf2 : b2 / stride < f2) :
    indexVector f1 (b1 / stride) stride true = indexVector f2 (b2 / stride) stride true ∧
      ((build_list f1 m1 base b1 stride true = none ∧
          build_list f2 m2 base b2 stride true = none) ∨
        (build_list f1 m1 base b1 stride true = some (0, m1) ∧
          build_list f2 m2 base b2 stride true = some (0, m2)) ∨
        ∃ first m1' m2', first ≠ 0 ∧
          build_list f1 m1 base b1 stride true = some (first, m1') ∧
          build_list f2 m2 base b2 stride true = some (first, m2') ∧
          ∀ s, s < b1 / stride →
            nodeNext m1' (base + s * stride) = nodeNext m2' (base + s * stride)) := by
  by_cases hw : b1 / stride < W32
  · have hidx : indexVector f1 (b1 / stride) stride true =
        indexVector f2 (b2 / stride) stride true := by
      rw [indexVector_eq f1 _ stride true hw hf1,
        indexVector_eq f2 _ stride true (by omega) hf2, hcount]
    refine ⟨hidx, ?_⟩
    by_cases h1 : stride < sizeofNode
    · right; left
      exact ⟨build_list_null_of _ _ _ _ _ _ (Or.inl h1), build_list_null_of _ _ _ _ _ _ (Or.inl h1)⟩
    · by_cases h2 : b1 / stride < 2
      · right; left
        exact ⟨build_list_null_of _ _ _ _ _ _ (Or.inr h2),
          build_list_null_of _ _ _ _ _ _ (Or.inr (hcount ▸ h2))⟩
      · right; right
        have hs : 16 ≤ stride := by simpa [sizeofNode] using h1
        obtain ⟨idx, m1', hi1, hperm, -, hbl1, -, hch1⟩ :=
          build_list_ok f1 m1 base b1 stride true hs (by omega) hw hv1.2 hf1
        obtain ⟨idx2, m2', hi2, -, -, hbl2, -, hch2⟩ :=
          build_list_ok f2 m2 base b2 stride true hs (by omega) (by omega) hv2.2 hf2
        have hsame : idx2 = idx := by
          rw [hidx, hi2] at hi1
          exact Option.some.inj hi1
        subst hsame
        refine ⟨_, m1', m2', ?_, hbl1, hbl2, ?_⟩
        · have := hv1.1
          omega
        · intro s hs'
          have hin : s ∈ idx2 := hperm.mem_iff.mpr (List.mem_range.mpr hs')
          obtain ⟨k, hk, hks⟩ := List.getElem_of_mem hin
          have e1 := (hch1 k hk).1
          have e2 := (hch2 k hk).1
          rw [List.getD_eq_getElem _ _ hk, hks] at e1 e2
          rw [e1, e2]
  · have hw2 : W32 ≤ b1 / stride := by omega
    have hn1 := indexVector_none f1 (b1 / stride) stride true hw2
    have hn2 := indexVector_none f2 (b2 / stride) stride true (by omega)
    refine ⟨by rw [hn1, hn2], ?_⟩
    by_cases h1 : stride < sizeofNode
    · right; left
      exact ⟨build_list_null_of _ _ _ _ _ _ (Or.inl h1), build_list_null_of _ _ _ _ _ _ (Or.inl h1)⟩
    · left
      exact ⟨build_list_none_of _ _ _ _ _ _ (by omega) hw2,
        build_list_none_of _ _ _ _ _ _ (by omega) (hcount ▸ hw2)⟩

/-- Witness of C4: extents 64 and 70 at stride 16, over an all-zero and an
all-ones memory. -/
theorem build_list_deterministic_witness :
    indexVector 5 (64 / 16) 16 true = indexVector 9 (70 / 16) 16 true ∧
      ((build_list 5 zeroMem 4096 64 16 true = none ∧
          build_list 9 (fun _ => 255) 4096 70 16 true = none) ∨
        (build_list 5 zeroMem 4096 64 16 true = some (0, zeroMem) ∧
          build_list 9 (fun _ => 255) 4096 70 16 true = some (0, fun _ => 255)) ∨
        ∃ first m1' m2', first ≠ 0 ∧
          build_list 5 zeroMem 4096 64 16 true = some (first, m1') ∧
          build_list 9 (fun _ => 255) 4096 70 16 true = some (first, m2') ∧
          ∀ s, s < 64 / 16 →
            nodeNext m1' (4096 + s * 16) = nodeNext m2' (4096 + s * 16)) :=
  build_list_deterministic 5 9 zeroMem (fun _ => 255) 4096 64 70 16 (by decide)
    ⟨by decide, by decide⟩ ⟨by decide, by decide⟩ (by decide) (by decide)

/-! ## The claims about the shuffle loop and the payload -/

/-- C5 (amended): for every slot count with `2 ≤ count < 2 ^ 32`, every ordering
of the slot indices `0 .. count - 1` is reachable: some sequence of `count - 1`
32-bit generator values makes the shuffle loop produce it. -/
theorem shuffle_reaches_every_ordering (count : Nat) (l : List Nat) (hc : 2 ≤ count)
    (hw : count < W32) (hl : l.Perm (List.range count)) :
    ∃ draws, draws.length = count - 1 ∧ (∀ v ∈ draws, v < W32) ∧
      shuffleWith count draws = some l := by
  obtain ⟨js, hjs, hrun⟩ := shuffleLoop_reaches (count - 1) (List.range count) l
    (by simp; omega) (by omega) (List.nodup_range count) hl
    (beyond_range count l (by omega) hl)
  obtain ⟨hlen, hv⟩ := indexSeq_bounds _ _ hjs
  exact ⟨js, hlen, fun v hv' => lt_of_le_of_lt (hv v hv') (by omega), hrun⟩

/-- Witness of C5: the reversed ordering of three slots. -/
theorem shuffle_reaches_every_ordering_witness :
    ∃ draws, draws.length = 3 - 1 ∧ (∀ v ∈ draws, v < W32) ∧
      shuffleWith 3 draws = some [2, 1, 0] :=
  shuffle_reaches_every_ordering 3 [2, 1, 0] (by decide) (by decide) (by decide)

/-- Counterexample to C5 as stated: for `count = 2 ^ 32` the first divisor
`(uint32_t)(i + 1)` is zero, the loop traps, and no ordering is produced by any
sequence of generator values. -/
theorem shuffle_reaches_every_ordering_fails :
    2 ≤ 2 ^ 32 ∧ ∀ draws l, shuffleWith (2 ^ 32) draws ≠ some l := by
  refine ⟨by norm_num, ?_⟩
  intro draws l h
  unfold shuffleWith at h
  rw [show 2 ^ 32 - 1 = (2 ^ 32 - 2) + 1 by norm_num,
    shuffleLoop_trap replay _ _ _ (by norm_num [W32])] at h
  exact Option.noConfusion h

/-- C6 (amended): for every slot count with `2 ≤ count < 2 ^ 32` the shuffle
loop is unbiased as a function of the swap indices: each ordering of the slot
indices is produced by exactly one sequence of swap indices `j ≤ i` for
`i = count - 1` down to `1`, so uniformly distributed swap indices give a
uniformly distributed ordering. -/
theorem shuffle_index_bijection (count : Nat) (l : List Nat) (hc : 2 ≤ count)
    (hw : count < W32) (hl : l.Perm (List.range count)) :
    ∃! js, IndexSeq (count - 1) js ∧ shuffleWith count js = some l := by
  obtain ⟨js, hjs, hrun⟩ := shuffleLoop_reaches (count - 1) (List.range count) l
    (by simp; omega) (by omega) (List.nodup_range count) hl
    (beyond_range count l (by omega) hl)
  refine ⟨js, ⟨hjs, hrun⟩, ?_⟩
  rintro js' ⟨hjs', hrun'⟩
  exact shuffleLoop_unique (count - 1) (List.range count) l js' js (by simp; omega)
    (by omega) (List.nodup_range count) hjs' hjs hrun' hrun

/-- Witness of C6: the reversed ordering of three slots. -/
theorem shuffle_index_bijection_witness :
    ∃! js, IndexSeq (3 - 1) js ∧ shuffleWith 3 js = some [2, 1, 0] :=
  shuffle_index_bijection 3 [2, 1, 0] (by decide) (by decide) (by decide)

/-- Counterexample to C6 as stated: on three slots the reversed ordering is
produced by more pairs of 32-bit generator values than the identity ordering,
because `2 ^ 32` is not a multiple of 3. -/
theorem shuffle_modulo_bias :
    pairsProducing [2, 1, 0] = 1431655766 * 2147483648 ∧
      pairsProducing [0, 1, 2] = 1431655765 * 2147483648 ∧
      pairsProducing [0, 1, 2] ≠ pairsProducing [2, 1, 0] := by
  refine ⟨pairsProducing_rev, pairsProducing_id, ?_⟩
  rw [pairsProducing_rev, pairsProducing_id]
  norm_num

/-- C7: after a successful `build_list` (a non-null return, either mode) every
one of the `bytes / stride` slots holds the sentinel `0x12345678` as its data
payload. -/
theorem build_list_sentinel (fuel : Nat) (m : Mem) (base bytes stride : Nat)
    (scrambled : Bool) (p : Nat) (m' : Mem) (hbuf : ValidBuf base bytes)
    (h : build_list fuel m base bytes stride scrambled = some (p, m')) (hp : p ≠ 0) :
    ∀ s, s < bytes / stride → nodeData m' (base + s * stride) = 0x12345678 := by
  obtain ⟨hs, hc, hw⟩ := build_list_success fuel m base bytes stride scrambled p m' h hp
  have hmono := build_list_fuel_mono fuel (bytes / stride + 1) m base bytes stride scrambled _ h
  obtain ⟨idx, m2, -, hperm, -, hbl, -, hch⟩ :=
    build_list_ok (fuel + (bytes / stride + 1)) m base bytes stride scrambled hs hc hw hbuf.2
      (by omega)
  rw [hmono] at hbl
  simp only [Option.some.injEq, Prod.mk.injEq] at hbl
  obtain ⟨-, hm⟩ := hbl
  subst hm
  intro s hs'
  have hin : s ∈ idx := hperm.mem_iff.mpr (List.mem_range.mpr hs')
  obtain ⟨k, hk, hks⟩ := List.getElem_of_mem hin
  have := (hch k hk).2
  rw [List.getD_eq_getElem _ _ hk, hks] at this
  exact this

/-- Witness of C7: slot 3 of a scrambled chain of four 16-byte slots. -/
theorem build_list_sentinel_witness :
    nodeData (linkAll zeroMem 4096 16 [2, 3, 1, 0]).2 (4096 + 3 * 16) = 0x12345678 :=
  build_list_sentinel 5 zeroMem 4096 64 16 true 4128 _ ⟨by decide, by decide⟩ rfl (by decide)
    3 (by decide)

/-! ## The claims about the timed traversals and the stride sweep -/

/-- C9: `trash_caches` and `dep_walk_cy_per_load` leave the memory unchanged:
every byte, hence every next link and payload, is the same after the call, and
a traversal repeated from the same head, also after another cache-defeat pass,
visits the same nodes and hands the same pointer to `keep_live`. -/
theorem traversal_leaves_memory (clock : Nat → Nat) (fuel : Nat) (m : Mem)
    (tick head : Nat) (count : Int) (buf bytes : Nat) :
    (trash_caches m buf bytes).1 = m ∧
      ∀ t, dep_walk_cy_per_load clock fuel m tick head count = some t →
        t.mem = m ∧
        (∀ a, t.mem a = m a ∧ (trash_caches t.mem buf bytes).1 a = m a) ∧
        (∀ p, nodeNext t.mem p = nodeNext m p ∧ nodeData t.mem p = nodeData m p) ∧
        (∀ k, walk t.mem k head = walk m k head ∧
          walk (trash_caches t.mem buf bytes).1 k head = walk m k head) ∧
        ∃ t', dep_walk_cy_per_load clock fuel t.mem t.tick head count = some t' ∧
          t'.kept = t.kept ∧ t'.mem = m := by
  refine ⟨trash_caches_mem m buf bytes, ?_⟩
  intro t ht
  have hmem : ∀ tk u, dep_walk_cy_per_load clock fuel m tk head count = some u →
      u.mem = m ∧ ∃ s, forBy4 chase4 count fuel 0 (m, head) = some s ∧ u.kept = some s.2 ∧
        s.1 = m ∧ toU64 count ≠ 0 := by
    intro tk u hu
    unfold dep_walk_cy_per_load at hu
    cases hloop : forBy4 chase4 count fuel 0 (m, head) with
    | none => rw [hloop] at hu; exact Option.noConfusion hu
    | some s =>
      rw [hloop] at hu
      simp only [rdtsc_serialized] at hu
      by_cases hz : toU64 count = 0
      · rw [if_pos hz] at hu; exact Option.noConfusion hu
      · rw [if_neg hz] at hu
        have hs1 : s.1 = m := forBy4_chase_mem count fuel 0 (m, head) s hloop
        have hu' := Option.some.inj hu
        subst hu'
        exact ⟨hs1, s, rfl, rfl, hs1, hz⟩
  obtain ⟨h1, s, hs, hk, hs1, hz⟩ := hmem tick t ht
  rw [h1]
  refine ⟨rfl, fun a => ⟨rfl, by rw [trash_caches_mem]⟩, fun p => ⟨rfl, rfl⟩,
    fun k => ⟨rfl, by rw [trash_caches_mem]⟩, ?_⟩
  refine ⟨⟨sub64 (rdtsc_serialized clock (t.tick + 1)).1 (rdtsc_serialized clock t.tick).1 /
    toU64 count, some s.2, s.1, t.tick + 1 + 1⟩, ?_, hk.symm, hs1⟩
  unfold dep_walk_cy_per_load
  rw [hs]
  simp only [rdtsc_serialized]
  rw [if_neg hz]

/-- Witness of C9: the scrambled chain of four 16-byte slots that `build_list`
leaves at address 4096 (slot 2, then 3, 1, 0 and back to slot 2).  A traversal
of eight links from its head 4128 ends at the head again; afterwards every next
link and payload is as built, every walk from the head visits the same nodes,
also after a cache-defeat pass, and the traversal repeated after such a pass
hands the same pointer to `keep_live`. -/
theorem traversal_leaves_memory_witness :
    build_list 5 zeroMem 4096 64 16 true =
        some (4128, (linkAll zeroMem 4096 16 [2, 3, 1, 0]).2) ∧
      (List.range 5).map (fun k => walk (linkAll zeroMem 4096 16 [2, 3, 1, 0]).2 k 4128) =
        [4128, 4144, 4112, 4096, 4128] ∧
      (trash_caches (linkAll zeroMem 4096 16 [2, 3, 1, 0]).2 4096 64).1 =
        (linkAll zeroMem 4096 16 [2, 3, 1, 0]).2 ∧
      ∃ t, dep_walk_cy_per_load (fun n => 1000 + 800 * n) 3
          (linkAll zeroMem 4096 16 [2, 3, 1, 0]).2 0 4128 8 = some t ∧
        t.kept = some 4128 ∧
        (∀ p, nodeNext t.mem p = nodeNext (linkAll zeroMem 4096 16 [2, 3, 1, 0]).2 p ∧
          nodeData t.mem p = nodeData (linkAll zeroMem 4096 16 [2, 3, 1, 0]).2 p) ∧
        (∀ k, walk t.mem k 4128 = walk (linkAll zeroMem 4096 16 [2, 3, 1, 0]).2 k 4128 ∧
          walk (trash_caches t.mem 4096 64).1 k 4128 =
            walk (linkAll zeroMem 4096 16 [2, 3, 1, 0]).2 k 4128) ∧
        ∃ t', dep_walk_cy_per_load (fun n => 1000 + 800 * n) 3
            (trash_caches t.mem 4096 64).1 t.tick 4128 8 = some t' ∧
          t'.kept = t.kept ∧ t'.mem = (linkAll zeroMem 4096 16 [2, 3, 1, 0]).2 :=
  have hd := dep_walk_spec (fun n => 1000 + 800 * n) 3
    (linkAll zeroMem 4096 16 [2, 3, 1, 0]).2 0 4128 8 (by decide) (by decide) (by decide)
    (by decide)
  have h := traversal_leaves_memory (fun n => 1000 + 800 * n) 3
    (linkAll zeroMem 4096 16 [2, 3, 1, 0]).2 0 4128 ((8 : Nat) : Int) 4096 64
  ⟨rfl, rfl, h.1, _, hd, rfl, (h.2 _ hd).2.2.1, (h.2 _ hd).2.2.2.1, (h.2 _ hd).2.2.2.2⟩

/-- C10: `run_p1` measures exactly the nine strides 16, 32, ..., 4096 in
increasing order; it reads the clock 54 times, twice for each of the 27
measurements, so no measurement takes the failure branch; and for each of the
nine strides both chain builds over the 64 KiB working set return a non-null
start, whatever the memory. -/
theorem run_p1_strides (clock : Nat → Nat) (fuel : Nat) (m : Mem) (tick buf : Nat)
    (hbuf : ValidBuf buf kBufSize) (hf : 4096 < fuel) :
    (∃ rows m', run_p1 clock fuel m tick buf = some (rows, m', tick + 54) ∧
        rows.map Row.stride = [16, 32, 64, 128, 256, 512, 1024, 2048, 4096]) ∧
      ∀ m0 lg scrambled, 4 ≤ lg → lg ≤ 12 →
        ∃ start m1, build_list fuel m0 buf (64 * 1024) (2 ^ lg) scrambled = some (start, m1) ∧
          start ≠ 0 ∧
          ∀ tk, p1_dep_cy_per_load clock fuel m0 tk buf (64 * 1024) (2 ^ lg) scrambled =
            some ⟨sub64 (clock (tk + 1) % W64) (clock tk % W64) / 256,
              some (walk m1 256 start), m1, tk + 2⟩ := by
  constructor
  · obtain ⟨rows, m', hrun, hstr⟩ := p1Loop_spec clock fuel buf hbuf hf 9 fuel 4 [] m tick
      (by decide) (by decide) (by omega)
    refine ⟨rows, m', ?_, ?_⟩
    · unfold run_p1
      rw [hrun]
      simp
    · rw [hstr]
      decide
  · intro m0 lg scrambled h4 h12
    obtain ⟨start, m1, hb, hn⟩ := p1_build_nonnull fuel m0 buf lg scrambled hbuf hf h4 h12
    exact ⟨start, m1, hb, hn, fun tk =>
      p1_dep_spec clock fuel m0 tk buf (64 * 1024) (2 ^ lg) scrambled start m1 hb hn (by omega)⟩

/-- Witness of C10: the buffer at address `2 ^ 30`; the scrambled build at
stride 64 on the all-zero memory. -/
theorem run_p1_strides_witness :
    (∃ rows m', run_p1 (fun n => 300 * n) 4097 zeroMem 0 (2 ^ 30) = some (rows, m', 0 + 54) ∧
        rows.map Row.stride = [16, 32, 64, 128, 256, 512, 1024, 2048, 4096]) ∧
      ∃ start m1, build_list 4097 zeroMem (2 ^ 30) (64 * 1024) (2 ^ 6) true =
          some (start, m1) ∧ start ≠ 0 ∧
        ∀ tk, p1_dep_cy_per_load (fun n => 300 * n) 4097 zeroMem tk (2 ^ 30) (64 * 1024)
            (2 ^ 6) true =
          some ⟨sub64 (300 * (tk + 1) % W64) (300 * tk % W64) / 256,
            some (walk m1 256 start), m1, tk + 2⟩ :=
  have h := run_p1_strides (fun n => 300 * n) 4097 zeroMem 0 (2 ^ 30) ⟨by decide, by decide⟩
    (by decide)
  ⟨h.1, h.2 zeroMem 6 true (by decide) (by decide)⟩

/-! ## The claims about the loads of the stride sweep and the capacity sweep -/

/-- C12: for every `int` linesize for which the chain build over the 64 MiB
buffer succeeds, `run_p2` returns; the sizes it measures are exactly the link
counts `2 ^ lg` for `lg = 4, 5, 6, ...` in increasing order for as long as
`2 ^ lg * linesize ≤ 64 MiB`; and for each of them the four timed traversals
walk exactly `2 ^ lg` links from the head of the one chain built before the
loop, in the memory that build left. -/
theorem run_p2_sweep (clock : Nat → Nat) (fuel : Nat) (m : Mem) (tick buf : Nat)
    (linesize : Int) (head : Nat) (m1 : Mem) (h1 : -(2 : Int) ^ 31 ≤ linesize)
    (h2 : linesize < (2 : Int) ^ 31)
    (hb : build_list fuel m buf kBufSize (toU64 linesize) true = some (head, m1))
    (hh : head ≠ 0) (hf : 2 ^ 20 < fuel) :
    ∃ rows k, run_p2 clock fuel m tick buf linesize = some ⟨rows, false, m1, tick + 8 * k⟩ ∧
      rows.map P2Row.lg = List.range' 4 k ∧
      (∀ lg, 4 ≤ lg → (lg < 4 + k ↔ 2 ^ lg * linesize.toNat ≤ kBufSize)) ∧
      ∀ row ∈ rows, RowWalks m1 head linesize.toNat row :=
  run_p2_spec clock fuel m tick buf linesize head m1 h1 h2 hb hh hf

/-- Witness of C12: linesize `2 ^ 22` (16 lines in 64 MiB), for which exactly
the size `2 ^ 4` is measured. -/
theorem run_p2_sweep_witness :
    ∃ rows k, run_p2 (fun n => 500 * n) 1048577 zeroMem 0 (2 ^ 30) (2 ^ 22) =
        some ⟨rows, false,
          (linkAll zeroMem (2 ^ 30) (2 ^ 22)
            [8, 4, 0, 3, 6, 10, 9, 15, 1, 13, 5, 11, 14, 7, 2, 12]).2, 0 + 8 * k⟩ ∧
      rows.map P2Row.lg = List.range' 4 k ∧
      (∀ lg, 4 ≤ lg → (lg < 4 + k ↔ 2 ^ lg * ((2 : Int) ^ 22).toNat ≤ kBufSize)) ∧
      ∀ row ∈ rows, RowWalks
        (linkAll zeroMem (2 ^ 30) (2 ^ 22)
          [8, 4, 0, 3, 6, 10, 9, 15, 1, 13, 5, 11, 14, 7, 2, 12]).2
        (2 ^ 30 + 8 * 2 ^ 22) ((2 : Int) ^ 22).toNat row :=
  run_p2_sweep (fun n => 500 * n) 1048577 zeroMem 0 (2 ^ 30) (2 ^ 22) (2 ^ 30 + 8 * 2 ^ 22) _
    (by decide) (by decide) rfl (by decide) (by decide)

/-- C13: whenever `build_list` returns null, the driver performs no traversal:
`p1_dep_cy_per_load` returns 0 without reading the clock or following a link,
and `run_p2` reports the failure and returns before its loop; this is the case
of `run_p2` for every `int` linesize below 16, zero and negative values
included. -/
theorem build_failure_skips_traversal (clock : Nat → Nat) (fuel : Nat) (m : Mem)
    (tick : Nat) :
    (∀ base bytes stride scrambled m1,
        build_list fuel m base bytes stride scrambled = some (0, m1) →
        p1_dep_cy_per_load clock fuel m tick base bytes stride scrambled =
          some ⟨0, none, m1, tick⟩) ∧
      (∀ buf linesize m1,
        build_list fuel m buf kBufSize (toU64 linesize) true = some (0, m1) →
        run_p2 clock fuel m tick buf linesize = some ⟨[], true, m1, tick⟩) ∧
      ∀ buf (linesize : Int), -(2 : Int) ^ 31 ≤ linesize → linesize < 16 →
        run_p2 clock fuel m tick buf linesize = some ⟨[], true, m, tick⟩ :=
  ⟨fun base bytes stride scrambled m1 hb =>
      p1_dep_failed clock fuel m tick base bytes stride scrambled m1 hb,
    fun buf linesize m1 hb => run_p2_failed clock fuel m tick buf linesize m1 hb,
    fun buf linesize h1 h2 =>
      run_p2_failed clock fuel m tick buf linesize m
        (build_list_small_linesize fuel m buf linesize h1 h2)⟩

/-- Witness of C13: an extent of 31 bytes at stride 16, and the linesizes 0
and -64. -/
theorem build_failure_skips_traversal_witness :
    p1_dep_cy_per_load (fun n => n) 3 zeroMem 7 4096 31 16 false =
        some ⟨0, none, zeroMem, 7⟩ ∧
      run_p2 (fun n => n) 3 zeroMem 7 4096 0 = some ⟨[], true, zeroMem, 7⟩ ∧
      run_p2 (fun n => n) 3 zeroMem 7 4096 (-64) = some ⟨[], true, zeroMem, 7⟩ :=
  have h := build_failure_skips_traversal (fun n => n) 3 zeroMem 7
  ⟨h.1 4096 31 16 false zeroMem rfl, h.2.1 4096 0 zeroMem rfl,
    h.2.2 4096 (-64) (by decide) (by decide)⟩

end CacheSizes

namespace Transpose

/-! ## Index arithmetic -/

theorem wrap64_id (x : Int) (h1 : -(2 : Int) ^ 63 ≤ x) (h2 : x < (2 : Int) ^ 63) :
    wrap64 x = x := by
  unfold wrap64
  have e63 : (2 : Int) ^ 63 = 9223372036854775808 := by norm_num
  have e64 : (2 : Int) ^ 64 = 18446744073709551616 := by norm_num
  rw [e63] at h1 h2
  rw [e63, e64]
  omega

theorem validMatrix_toNat (n : Int) (hv : ValidMatrix n) :
    n = ((n.toNat : Nat) : Int) ∧ n.toNat * n.toNat ≤ 2 ^ 61 := by
  obtain ⟨h0, h8⟩ := hv
  have hc : n = ((n.toNat : Nat) : Int) := (Int.toNat_of_nonneg h0).symm
  refine ⟨hc, ?_⟩
  have e64 : (2 : Int) ^ 64 = 18446744073709551616 := by norm_num
  rw [e64, hc] at h8
  have h : ((8 * (n.toNat * n.toNat) : Nat) : Int) ≤ ((18446744073709551616 : Nat) : Int) := by
    push_cast
    exact h8
  have h' : 8 * (n.toNat * n.toNat) ≤ 18446744073709551616 := by exact_mod_cast h
  have e61 : (2 : Nat) ^ 61 = 2305843009213693952 := by norm_num
  rw [e61]
  omega

theorem cell_lt (N i j : Nat) (hi : i < N) (hj : j < N) : i * N + j < N * N := by
  have h1 : (i + 1) * N ≤ N * N := Nat.mul_le_mul_right N hi
  have h2 : (i + 1) * N = i * N + N := by ring
  omega

theorem ij_eq (n : Int) (hv : ValidMatrix n) (i j : Nat) (hi : i < n.toNat) (hj : j < n.toNat) :
    ij i j n = ((i * n.toNat + j : Nat) : Int) := by
  obtain ⟨hc, hfit⟩ := validMatrix_toNat n hv
  have hlt := cell_lt n.toNat i j hi hj
  have hmul : i * n.toNat ≤ i * n.toNat + j := Nat.le_add_right _ _
  have e61 : (2 : Nat) ^ 61 = 2305843009213693952 := by norm_num
  have e63 : (2 : Int) ^ 63 = 9223372036854775808 := by norm_num
  rw [e61] at hfit
  unfold ij
  have hin : (i : Int) * n = ((i * n.toNat : Nat) : Int) := by
    conv_lhs => rw [hc]
    push_cast
    rfl
  rw [hin, wrap64_id ((i * n.toNat : Nat) : Int) (by rw [e63]; omega) (by rw [e63]; omega),
    wrap64_id _ (by rw [e63]; omega) (by rw [e63]; omega)]
  push_cast
  rfl

theorem cell_inj (N i j k l : Nat) (hj : j < N) (hl : l < N)
    (h : i * N + j = k * N + l) : i = k ∧ j = l := by
  have hN : 0 < N := by omega
  have h1 : (i * N + j) / N = i := by
    rw [Nat.add_comm, Nat.add_mul_div_right _ _ hN, Nat.div_eq_of_lt hj, Nat.zero_add]
  have h2 : (k * N + l) / N = k := by
    rw [Nat.add_comm, Nat.add_mul_div_right _ _ hN, Nat.div_eq_of_lt hl, Nat.zero_add]
  have hik : i = k := by rw [← h1, ← h2, h]
  subst hik
  exact ⟨rfl, by omega⟩

/-! ## Folds of swaps and stores -/

theorem foldl_flatMap_eq {α β γ : Type} (l : List α) (f : α → List β) (g : γ → β → γ) (c : γ) :
    (l.flatMap f).foldl g c = l.foldl (fun c a => (f a).foldl g c) c := by
  induction l generalizing c with
  | nil => rfl
  | cons a rest ih =>
    simp only [List.flatMap_cons, List.foldl_append, List.foldl_cons]
    exact ih _

theorem swapCells_other (m : QMem) (a b x : Int) (ha : x ≠ a) (hb : x ≠ b) :
    swapCells m a b x = m x := by
  simp [swapCells, ha, hb]

theorem swapCells_fst (m : QMem) (a b : Int) : swapCells m a b a = m b := by
  by_cases h : a = b
  · simp [swapCells, h]
  · simp [swapCells, h]

theorem swapCells_snd (m : QMem) (a b : Int) : swapCells m a b b = m a := by
  simp [swapCells]

theorem swaps_frame (pairs : List (Int × Int)) (m : QMem) (x : Int)
    (hx : ∀ p ∈ pairs, x ≠ p.1 ∧ x ≠ p.2) :
    pairs.foldl (fun m p => swapCells m p.1 p.2) m x = m x := by
  induction pairs generalizing m with
  | nil => rfl
  | cons p rest ih =>
    simp only [List.foldl_cons]
    rw [ih _ (fun q hq => hx q (List.mem_cons_of_mem _ hq))]
    exact swapCells_other m _ _ x (hx p (List.mem_cons_self _ _)).1
      (hx p (List.mem_cons_self _ _)).2

theorem swaps_fold (pairs : List (Int × Int)) (m : QMem) (hd : pairs.Pairwise Apart)
    (p : Int × Int) (hp : p ∈ pairs) :
    pairs.foldl (fun m p => swapCells m p.1 p.2) m p.1 = m p.2 ∧
      pairs.foldl (fun m p => swapCells m p.1 p.2) m p.2 = m p.1 := by
  induction pairs generalizing m with
  | nil => exact absurd hp (List.not_mem_nil _)
  | cons q rest ih =>
    simp only [List.foldl_cons]
    obtain ⟨hq, hrest⟩ := List.pairwise_cons.mp hd
    rcases List.mem_cons.mp hp with rfl | hmem
    · rw [swaps_frame rest _ p.1 (fun r hr => ⟨(hq r hr).1, (hq r hr).2.1⟩),
        swaps_frame rest _ p.2 (fun r hr => ⟨(hq r hr).2.2.1, (hq r hr).2.2.2⟩)]
      exact ⟨swapCells_fst m _ _, swapCells_snd m _ _⟩
    · obtain ⟨h1, h2⟩ := ih (swapCells m q.1 q.2) hrest hmem
      have ha := hq p hmem
      rw [h1, h2]
      exact ⟨swapCells_other m _ _ _ (Ne.symm ha.2.1) (Ne.symm ha.2.2.2),
        swapCells_other m _ _ _ (Ne.symm ha.1) (Ne.symm ha.2.2.1)⟩


/-! ## The plain transpose -/

theorem mem_upto (lo : Nat) (hi : Int) (x : Nat) :
    x ∈ upto lo hi ↔ lo ≤ x ∧ x < hi.toNat := by
  unfold upto
  rw [List.mem_range'_1]
  omega

theorem upto_pairwise (lo : Nat) (hi : Int) : (upto lo hi).Pairwise (· < ·) :=
  List.pairwise_lt_range' lo _

theorem ij_ne (n : Int) (hv : ValidMatrix n) (a b c d : Nat) (ha : a < n.toNat)
    (hb : b < n.toNat) (hc : c < n.toNat) (hd : d < n.toNat) (h : a ≠ c ∨ b ≠ d) :
    ij a b n ≠ ij c d n := by
  rw [ij_eq n hv a b ha hb, ij_eq n hv c d hc hd]
  intro heq
  have heq' : a * n.toNat + b = c * n.toNat + d := by exact_mod_cast heq
  obtain ⟨h1, h2⟩ := cell_inj n.toNat a b c d hb hd heq'
  rcases h with h | h
  · exact h h1
  · exact h h2

theorem transposePlain_eq (m : QMem) (n : Int) :
    transposePlain m n = (cellPairs n).foldl (fun m p => swapCells m p.1 p.2) m := by
  unfold transposePlain cellPairs
  rw [foldl_flatMap_eq]
  congr 1
  funext m i
  rw [List.foldl_map]
  rfl

theorem mem_cellPairs (n : Int) (p : Int × Int) :
    p ∈ cellPairs n ↔ ∃ i j, i < j ∧ j < n.toNat ∧ p = (ij i j n, ij j i n) := by
  unfold cellPairs
  simp only [List.mem_flatMap, List.mem_map, mem_upto]
  constructor
  · rintro ⟨i, ⟨-, hi⟩, j, ⟨hij, hj⟩, rfl⟩
    exact ⟨i, j, by omega, hj, rfl⟩
  · rintro ⟨i, j, hij, hj, rfl⟩
    exact ⟨i, ⟨by omega, by omega⟩, j, ⟨by omega, hj⟩, rfl⟩

theorem cellPairs_apart (n : Int) (hv : ValidMatrix n) : (cellPairs n).Pairwise Apart := by
  unfold cellPairs
  rw [List.pairwise_flatMap]
  constructor
  · intro i hi
    rw [List.pairwise_map]
    refine List.Pairwise.imp_of_mem ?_ (upto_pairwise (i + 1) n)
    intro j1 j2 h1 h2 hlt
    rw [mem_upto] at h1 h2 hi
    refine ⟨?_, ?_, ?_, ?_⟩ <;> apply ij_ne n hv <;> omega
  · refine List.Pairwise.imp_of_mem ?_ (upto_pairwise 0 n)
    intro i1 i2 h1 h2 hlt x hx y hy
    rw [List.mem_map] at hx hy
    obtain ⟨j1, hj1, rfl⟩ := hx
    obtain ⟨j2, hj2, rfl⟩ := hy
    rw [mem_upto] at h1 h2 hj1 hj2
    refine ⟨?_, ?_, ?_, ?_⟩ <;> apply ij_ne n hv <;> omega

theorem transposePlain_cell (m : QMem) (n : Int) (hv : ValidMatrix n) (i j : Nat)
    (hi : i < n.toNat) (hj : j < n.toNat) :
    transposePlain m n (ij i j n) = m (ij j i n) := by
  rw [transposePlain_eq]
  rcases Nat.lt_trichotomy i j with h | h | h
  · exact (swaps_fold (cellPairs n) m (cellPairs_apart n hv) (ij i j n, ij j i n)
      ((mem_cellPairs n _).mpr ⟨i, j, h, hj, rfl⟩)).1
  · subst h
    apply swaps_frame
    intro p hp
    obtain ⟨a, b, hab, hb, rfl⟩ := (mem_cellPairs n p).mp hp
    constructor <;> apply ij_ne n hv <;> omega
  · exact (swaps_fold (cellPairs n) m (cellPairs_apart n hv) (ij j i n, ij i j n)
      ((mem_cellPairs n _).mpr ⟨j, i, h, hi, rfl⟩)).2

theorem transposePlain_outside (m : QMem) (n : Int) (x : Int)
    (hx : ∀ i j : Nat, i < n.toNat → j < n.toNat → x ≠ ij i j n) :
    transposePlain m n x = m x := by
  rw [transposePlain_eq]
  apply swaps_frame
  intro p hp
  obtain ⟨a, b, hab, hb, rfl⟩ := (mem_cellPairs n p).mp hp
  exact ⟨hx a b (by omega) hb, hx b a hb (by omega)⟩

/-! ## Initialisation and check -/

theorem stores_fold (cells : List Int) (m : QMem) (x : Int) (hx : x ∈ cells) :
    cells.foldl (fun m k => setCell m k k) m x = x := by
  induction cells generalizing m with
  | nil => exact absurd hx (List.not_mem_nil _)
  | cons c rest ih =>
    simp only [List.foldl_cons]
    by_cases hr : x ∈ rest
    · exact ih _ hr
    · have hxc : x = c := (List.mem_cons.mp hx).resolve_right hr
      have hframe : ∀ (l : List Int) (m : QMem), x ∉ l →
          l.foldl (fun m k => setCell m k k) m x = m x := by
        intro l
        induction l with
        | nil => intro m _; rfl
        | cons d l ihl =>
          intro m hnot
          simp only [List.foldl_cons]
          rw [ihl _ (fun h => hnot (List.mem_cons_of_mem _ h))]
          have : x ≠ d := fun h => hnot (h ▸ List.mem_cons_self _ _)
          simp [setCell, this]
      rw [hframe rest _ hr, hxc]
      simp [setCell]

theorem init_square_matrix_eq (m : QMem) (n : Int) :
    init_square_matrix m n =
      ((upto 0 n).flatMap (fun (i : Nat) => (upto 0 n).map (fun (j : Nat) => ij i j n))).foldl
        (fun m k => setCell m k k) m := by
  unfold init_square_matrix
  rw [foldl_flatMap_eq]
  congr 1
  funext m i
  rw [List.foldl_map]

theorem init_square_matrix_cell (m : QMem) (n : Int) (i j : Nat) (hi : i < n.toNat)
    (hj : j < n.toNat) : init_square_matrix m n (ij i j n) = ij i j n := by
  rw [init_square_matrix_eq]
  apply stores_fold
  simp only [List.mem_flatMap, List.mem_map, mem_upto]
  exact ⟨i, ⟨by omega, hi⟩, j, ⟨by omega, hj⟩, rfl⟩

theorem check_fold_one (l : List Nat) (c : Nat → Prop) [DecidablePred c] (h : ∀ j ∈ l, c j) :
    l.foldl (fun (ok : Nat) (j : Nat) => ok &&& (if c j then 1 else 0)) 1 = 1 := by
  induction l with
  | nil => rfl
  | cons a rest ih =>
    simp only [List.foldl_cons]
    rw [if_pos (h a (List.mem_cons_self _ _))]
    exact ih (fun j hj => h j (List.mem_cons_of_mem _ hj))

theorem check_transpose_one (m : QMem) (n : Int)
    (h : ∀ i j : Nat, i < j → j < n.toNat → m (ij i j n) = ij j i n) :
    check_transpose m n = 1 := by
  unfold check_transpose
  have key : ∀ (l : List Nat), (∀ i ∈ l, i < n.toNat) →
      l.foldl (fun (ok : Nat) (i : Nat) => (upto (i + 1) n).foldl (fun (ok : Nat) (j : Nat) =>
        ok &&& (if m (ij i j n) = ij j i n then 1 else 0)) ok) 1 = 1 := by
    intro l
    induction l with
    | nil => intro _; rfl
    | cons a rest ih =>
      intro hl
      simp only [List.foldl_cons]
      rw [check_fold_one (upto (a + 1) n) (fun j => m (ij a j n) = ij j a n)
        (fun j hj => by
          rw [mem_upto] at hj
          exact h a j (by omega) hj.2)]
      exact ih (fun i hi => hl i (List.mem_cons_of_mem _ hi))
  exact key _ (fun i hi => ((mem_upto 0 n i).mp hi).2)


theorem ij_val (n : Int) (hv : ValidMatrix n) (i j : Nat) (hi : (i : Int) < n)
    (hj : (j : Int) < n) : ij i j n = (i : Int) * n + j := by
  obtain ⟨hc, -⟩ := validMatrix_toNat n hv
  rw [ij_eq n hv i j (by omega) (by omega)]
  conv_rhs => rw [hc]
  push_cast
  rfl

theorem transpose_zero (m : QMem) (n : Int) : transpose m n 0 = some (transposePlain m n) := by
  simp [transpose, REPEAT_COUNT]

/-! ## The claim about the plain transpose -/

/-- C14: for every `n ≥ 0` and every `n × n` matrix stored row-major in
`qw_mem`, after `transpose(qw_mem, n, 0)` the entry at index `i * n + j` equals
the original entry at index `j * n + i` for all `i, j < n`; on the matrix
written by `init_square_matrix` the function `check_transpose` then returns 1. -/
theorem transpose_part0_correct (m : QMem) (n : Int) (hv : ValidMatrix n) :
    ∃ m', transpose m n 0 = some m' ∧
      (∀ i j : Nat, (i : Int) < n → (j : Int) < n →
        m' ((i : Int) * n + j) = m ((j : Int) * n + i)) ∧
      (∀ i j : Nat, (i : Int) < n → (j : Int) < n →
        init_square_matrix m n ((i : Int) * n + j) = (i : Int) * n + j) ∧
      ∃ t, transpose (init_square_matrix m n) n 0 = some t ∧ check_transpose t n = 1 := by
  refine ⟨transposePlain m n, transpose_zero m n, ?_, ?_, transposePlain _ n,
    transpose_zero _ n, ?_⟩
  · intro i j hi hj
    rw [← ij_val n hv i j hi hj, ← ij_val n hv j i hj hi]
    exact transposePlain_cell m n hv i j (by omega) (by omega)
  · intro i j hi hj
    rw [← ij_val n hv i j hi hj]
    exact init_square_matrix_cell m n i j (by omega) (by omega)
  · apply check_transpose_one
    intro i j hij hj
    rw [transposePlain_cell _ n hv i j (by omega) hj]
    exact init_square_matrix_cell m n j i hj (by omega)

/-- Witness of C14: the 128 × 128 matrix. -/
theorem transpose_part0_correct_witness :
    ∃ m', transpose (fun _ => 0) 128 0 = some m' ∧
      (∀ i j : Nat, (i : Int) < 128 → (j : Int) < 128 →
        m' ((i : Int) * 128 + j) = (fun _ => (0 : Int)) ((j : Int) * 128 + i)) ∧
      (∀ i j : Nat, (i : Int) < 128 → (j : Int) < 128 →
        init_square_matrix (fun _ => 0) 128 ((i : Int) * 128 + j) = (i : Int) * 128 + j) ∧
      ∃ t, transpose (init_square_matrix (fun _ => 0) 128) 128 0 = some t ∧
        check_transpose t 128 = 1 :=
  transpose_part0_correct (fun _ => 0) 128 ⟨by decide, by decide⟩

/-! ## The unrolled transpose -/

theorem qadd_id (j k n : Int) (h0 : 0 ≤ j) (hk0 : 0 ≤ k) (hk : k ≤ 4) (hj : j + k ≤ n + 3)
    (hn : n + 3 < 2 ^ 63) : qadd j k = j + k := by
  have e63 : (2 : Int) ^ 63 = 9223372036854775808 := by norm_num
  rw [e63] at hn
  unfold qadd
  apply wrap64_id
  · rw [e63]; omega
  · rw [e63]; omega

theorem uptoFrom_nil (lo hi : Int) (h : hi ≤ lo) : uptoFrom lo hi = [] := by
  unfold uptoFrom
  have : (hi - lo).toNat = 0 := by omega
  rw [this]
  rfl

theorem uptoFrom_cons (lo hi : Int) (h : lo < hi) :
    uptoFrom lo hi = lo :: uptoFrom (lo + 1) hi := by
  unfold uptoFrom
  have : (hi - lo).toNat = (hi - (lo + 1)).toNat + 1 := by omega
  rw [this, List.range_succ_eq_map, List.map_cons, List.map_map]
  congr 1
  · simp
  · apply List.map_congr_left
    intro t _
    simp only [Function.comp_apply, Nat.cast_succ]
    omega

theorem uptoFrom_eq_map (lo : Nat) (hi : Int) :
    uptoFrom (lo : Int) hi = (upto lo hi).map (fun (j : Nat) => (j : Int)) := by
  unfold uptoFrom upto
  have : (hi - (lo : Int)).toNat = hi.toNat - lo := by omega
  rw [this, List.range'_eq_map_range, List.map_map]
  apply List.map_congr_left
  intro t _
  simp

/-- The unrolled loop, entered with `0 ≤ j ≤ n` where `n + 3` does not
overflow, exits within `n - j + 1` tests of its condition, and what it has
done, followed by the remainder loop, is the plain loop from `j`. -/
theorem unrolledLoop_spec (n : Int) (i : Nat) (hn : n + 3 < 2 ^ 63) :
    ∀ (fuel : Nat) (j : Int) (m : QMem), 0 ≤ j → j ≤ n → (n - j).toNat < fuel →
      ∃ r : Int × QMem, unrolledLoop n i fuel j m = some r ∧
        (uptoFrom r.1 n).foldl (fun (m : QMem) (j : Int) => swapQ n i j m) r.2 =
          (uptoFrom j n).foldl (fun (m : QMem) (j : Int) => swapQ n i j m) m := by
  intro fuel
  induction fuel with
  | zero => intro j m _ _ hf; omega
  | succ fuel ih =>
    intro j m h0 hj hf
    unfold unrolledLoop
    rw [qadd_id j 3 n h0 (by omega) (by omega) (by omega) hn]
    by_cases hc : j + 3 < n
    · rw [if_pos hc]
      rw [qadd_id j 0 n h0 (by omega) (by omega) (by omega) hn,
        qadd_id j 1 n h0 (by omega) (by omega) (by omega) hn,
        qadd_id j 2 n h0 (by omega) (by omega) (by omega) hn,
        qadd_id j 4 n h0 (by omega) (by omega) (by omega) hn]
      have := ih (j + 4) (swapQ n i (j + 3) (swapQ n i (j + 2) (swapQ n i (j + 1)
        (swapQ n i (j + 0) m)))) (by omega) (by omega) (by omega)
      obtain ⟨r, hr, hfold⟩ := this
      refine ⟨r, hr, ?_⟩
      rw [hfold, uptoFrom_cons j n (by omega), uptoFrom_cons (j + 1) n (by omega),
        uptoFrom_cons (j + 1 + 1) n (by omega), uptoFrom_cons (j + 1 + 1 + 1) n (by omega)]
      have e2 : j + 1 + 1 = j + 2 := by ring
      have e3 : j + 1 + 1 + 1 = j + 3 := by ring
      have e4 : j + 1 + 1 + 1 + 1 = j + 4 := by ring
      have e0 : j + 0 = j := by ring
      rw [e4, e3, e2]
      simp only [List.foldl_cons, e0]
    · rw [if_neg hc]
      exact ⟨(j, m), rfl, rfl⟩

theorem unrolledRow_eq (n : Int) (hn : n + 3 < 2 ^ 63) (m : QMem) (i : Nat)
    (hi : (i : Int) < n) :
    unrolledRow n m i =
      some ((upto (i + 1) n).foldl (fun (m : QMem) (j : Nat) => swapIJ n i j m) m) := by
  obtain ⟨r, hr, hfold⟩ := unrolledLoop_spec n i hn n.toNat ((i : Int) + 1) m
    (by omega) (by omega) (by omega)
  unfold unrolledRow
  rw [hr]
  simp only
  rw [hfold]
  have : ((i : Int) + 1) = ((i + 1 : Nat) : Int) := by push_cast; rfl
  rw [this, uptoFrom_eq_map, List.foldl_map]
  rfl

theorem foldlM_some {α β : Type} (f : β → α → Option β) (g : β → α → β) :
    ∀ (l : List α) (b : β), (∀ a ∈ l, ∀ c, f c a = some (g c a)) →
      l.foldlM f b = some (l.foldl g b) := by
  intro l
  induction l with
  | nil => intro b _; rfl
  | cons a l ih =>
    intro b h
    rw [List.foldlM_cons, h a (List.mem_cons_self _ _) b]
    exact ih (g b a) (fun x hx c => h x (List.mem_cons_of_mem _ hx) c)

theorem transposeUnrolled_eq (m : QMem) (n : Int) (hn : n + 3 < 2 ^ 63) :
    transposeUnrolled m n = some (transposePlain m n) := by
  unfold transposeUnrolled transposePlain
  apply foldlM_some
  intro i hi c
  have hlt : i < n.toNat := ((mem_upto 0 n i).mp hi).2
  exact unrolledRow_eq n hn c i (by omega)

theorem transpose_one (m : QMem) (n : Int) (hn : n + 3 < 2 ^ 63) :
    transpose m n 1 = some (transposePlain m n) := by
  simp [transpose, REPEAT_COUNT, transposeUnrolled_eq m n hn]

/-- C21: for every `n` for which `j + 3` stays a `qword` (`n + 3 < 2 ^ 63`, which
holds whenever an `n × n` array exists) and every content of `qw_mem`, both
`transpose(qw_mem, n, 0)` and `transpose(qw_mem, n, 1)` return and leave the
same memory, whatever the length of a row right of the diagonal is modulo 4. -/
theorem transpose_part1_eq_part0 (m : QMem) (n : Int) (hn : n + 3 < 2 ^ 63) :
    ∃ m', transpose m n 0 = some m' ∧ transpose m n 1 = some m' :=
  ⟨transposePlain m n, transpose_zero m n, transpose_one m n hn⟩

/-- Witness of C21: `n = 7`, where the rows right of the diagonal hold 6, 5, 4,
3, 2, 1 and 0 cells. -/
theorem transpose_part1_eq_part0_witness :
    ((7 : Int) + 3 < 2 ^ 63) ∧
      ∃ m', transpose (fun x => x) 7 0 = some m' ∧ transpose (fun x => x) 7 1 = some m' :=
  ⟨by norm_num, transpose_part1_eq_part0 (fun x => x) 7 (by norm_num)⟩

end Transpose

namespace MemCopy

/-! ## Loops -/

theorem whileLoop_inv {σ : Type} (cond : σ → Bool) (body : σ → σ) (Inv : σ → Prop)
    (μ : σ → Nat)
    (hstep : ∀ s, Inv s → cond s = true → Inv (body s) ∧ μ (body s) < μ s)
    (fuel : Nat) (s : σ) (hs : Inv s) (hf : μ s < fuel) :
    ∃ s', whileLoop cond body fuel s = some s' ∧ Inv s' ∧ cond s' = false ∧ μ s' ≤ μ s := by
  induction fuel generalizing s with
  | zero => omega
  | succ fuel ih =>
    simp only [whileLoop]
    by_cases hc : cond s = true
    · rw [if_pos hc]
      obtain ⟨hi, hm⟩ := hstep s hs hc
      obtain ⟨s', h1, h2, h3, h4⟩ := ih (body s) hi (by omega)
      exact ⟨s', h1, h2, h3, by omega⟩
    · rw [if_neg hc]
      exact ⟨s, rfl, hs, by simpa using hc, le_refl _⟩

/-! ## Single steps on a partly copied memory -/

theorem copyByte_moved (m : Bytes) (S D N k : Int) (hsafe : D ≤ S ∨ S + N ≤ D)
    (hk0 : 0 ≤ k) (hk : k < N) :
    copyByte (moved m S D k) (S + k) (D + k) = moved m S D (k + 1) := by
  funext x
  simp only [copyByte, moved]
  by_cases hx : x = D + k
  · subst hx
    rw [if_pos rfl, if_neg (by omega), if_pos (by omega)]
    congr 1
    omega
  · rw [if_neg hx]
    by_cases h1 : D ≤ x ∧ x < D + k
    · rw [if_pos h1, if_pos (by omega)]
    · rw [if_neg h1, if_neg (by omega)]

theorem copyWord_moved (m : Bytes) (S D N k : Int) (hsafe : D ≤ S ∨ S + N ≤ D)
    (hk0 : 0 ≤ k) (hk : k + 4 ≤ N) :
    copyWord (moved m S D k) (S + k) (D + k) = moved m S D (k + 4) := by
  funext x
  simp only [copyWord, moved]
  by_cases hx : D + k ≤ x ∧ x < D + k + 4
  · rw [if_pos hx, if_neg (by omega), if_pos (by omega)]
    congr 1
    omega
  · rw [if_neg hx]
    by_cases h1 : D ≤ x ∧ x < D + k
    · rw [if_pos h1, if_pos (by omega)]
    · rw [if_neg h1, if_neg (by omega)]

theorem copyByte_movedBack (m : Bytes) (S D N k : Int) (hsafe : S ≤ D) (hk0 : 0 ≤ k) :
    copyByte (movedBack m S D N k) (S + N - k - 1) (D + N - k - 1) =
      movedBack m S D N (k + 1) := by
  funext x
  simp only [copyByte, movedBack]
  by_cases hx : x = D + N - k - 1
  · subst hx
    rw [if_pos rfl, if_neg (by omega), if_pos (by omega)]
    congr 1
    omega
  · rw [if_neg hx]
    by_cases h1 : D + N - k ≤ x ∧ x < D + N
    · rw [if_pos h1, if_pos (by omega)]
    · rw [if_neg h1, if_neg (by omega)]

theorem copyWord_movedBack (m : Bytes) (S D N k : Int) (hsafe : S ≤ D) (hk0 : 0 ≤ k) :
    copyWord (movedBack m S D N k) (S + N - k - 4) (D + N - k - 4) =
      movedBack m S D N (k + 4) := by
  funext x
  simp only [copyWord, movedBack]
  by_cases hx : D + N - k - 4 ≤ x ∧ x < D + N - k - 4 + 4
  · rw [if_pos hx, if_neg (by omega), if_pos (by omega)]
    congr 1
    omega
  · rw [if_neg hx]
    by_cases h1 : D + N - k ≤ x ∧ x < D + N
    · rw [if_pos h1, if_pos (by omega)]
    · rw [if_neg h1, if_neg (by omega)]

theorem moved_zero (m : Bytes) (S D : Int) : moved m S D 0 = m := by
  funext x
  simp only [moved]
  rw [if_neg (by omega)]

theorem movedBack_zero (m : Bytes) (S D N : Int) : movedBack m S D N 0 = m := by
  funext x
  simp only [movedBack]
  rw [if_neg (by omega)]

theorem movedBack_full (m : Bytes) (S D N : Int) : movedBack m S D N N = moved m S D N := by
  funext x
  simp only [movedBack, moved]
  by_cases h1 : D ≤ x ∧ x < D + N
  · rw [if_pos h1, if_pos (by omega)]
  · rw [if_neg h1, if_neg (by omega)]


/-! ## The copy loops -/

theorem copyFwd_spec (fuel : Nat) (m : Bytes) (S D N : Int) (hN : 0 ≤ N)
    (hsafe : D ≤ S ∨ S + N ≤ D) (hf : N.toNat < fuel) :
    ∃ r, copyFwd fuel m S D N = some r ∧ r.m = moved m S D N := by
  obtain ⟨r, hr, ⟨k, hk0, hkN, hsrc, -, hm⟩, hc, -⟩ := whileLoop_inv
    (fun r : Regs => decide (r.src < S + N)) stepFwd
    (fun r => ∃ k, 0 ≤ k ∧ k ≤ N ∧ r.src = S + k ∧ r.dst = D + k ∧ r.m = moved m S D k)
    (fun r => (S + N - r.src).toNat)
    (by
      rintro r ⟨k, hk0, hkN, hsrc, hdst, hm⟩ hc
      simp only [decide_eq_true_eq] at hc
      refine ⟨⟨k + 1, by omega, by omega, ?_, ?_, ?_⟩, ?_⟩
      · simp only [stepFwd]; omega
      · simp only [stepFwd]; omega
      · simp only [stepFwd]
        rw [hm, hsrc, hdst]
        exact copyByte_moved m S D N k hsafe hk0 (by omega)
      · simp only [stepFwd]; omega)
    fuel ⟨m, S, D, N⟩ ⟨0, le_refl _, hN, by simp, by simp, (moved_zero m S D).symm⟩
    (by simp only []; omega)
  refine ⟨r, hr, ?_⟩
  simp only [decide_eq_false_iff_not] at hc
  have : k = N := by omega
  rw [hm, this]

theorem copyBwd_spec (fuel : Nat) (m : Bytes) (S D N : Int) (hN : 0 ≤ N) (hsafe : S ≤ D)
    (hf : N.toNat < fuel) :
    ∃ r, copyBwd fuel m S D N = some r ∧ r.m = moved m S D N := by
  obtain ⟨r, hr, ⟨k, hk0, hkN, hsrc, -, hm⟩, hc, -⟩ := whileLoop_inv
    (fun r : Regs => decide (r.src > S)) stepBwd
    (fun r => ∃ k, 0 ≤ k ∧ k ≤ N ∧ r.src = S + N - k ∧ r.dst = D + N - k ∧
      r.m = movedBack m S D N k)
    (fun r => (r.src - S).toNat)
    (by
      rintro r ⟨k, hk0, hkN, hsrc, hdst, hm⟩ hc
      simp only [gt_iff_lt, decide_eq_true_eq] at hc
      refine ⟨⟨k + 1, by omega, by omega, ?_, ?_, ?_⟩, ?_⟩
      · simp only [stepBwd]; omega
      · simp only [stepBwd]; omega
      · simp only [stepBwd]
        rw [hm, hsrc, hdst]
        exact copyByte_movedBack m S D N k hsafe hk0
      · simp only [stepBwd]; omega)
    fuel ⟨m, S + N, D + N, N⟩
    ⟨0, le_refl _, hN, by simp, by simp, (movedBack_zero m S D N).symm⟩
    (by simp only []; omega)
  refine ⟨r, hr, ?_⟩
  simp only [gt_iff_lt, decide_eq_false_iff_not] at hc
  have : k = N := by omega
  rw [hm, this, movedBack_full]

theorem stepFwdCnt_inv (m : Bytes) (S D N : Int) (hsafe : D ≤ S ∨ S + N ≤ D) (r : Regs)
    (hr : FwdAt m S D N r) (hc : 0 < r.cnt) :
    FwdAt m S D N (stepFwdCnt r) ∧ (stepFwdCnt r).cnt.toNat < r.cnt.toNat := by
  obtain ⟨k, hk0, hkN, hsrc, hdst, hcnt, hm⟩ := hr
  refine ⟨⟨k + 1, by omega, by omega, ?_, ?_, ?_, ?_⟩, ?_⟩
  · simp only [stepFwdCnt]; omega
  · simp only [stepFwdCnt]; omega
  · simp only [stepFwdCnt]; omega
  · simp only [stepFwdCnt]
    rw [hm, hsrc, hdst]
    exact copyByte_moved m S D N k hsafe hk0 (by omega)
  · simp only [stepFwdCnt]; omega

theorem stepFwdWord_inv (m : Bytes) (S D N : Int) (hsafe : D ≤ S ∨ S + N ≤ D) (r : Regs)
    (hr : FwdAt m S D N r) (hc : 4 ≤ r.cnt) :
    FwdAt m S D N (stepFwdWord r) ∧ (stepFwdWord r).cnt.toNat < r.cnt.toNat := by
  obtain ⟨k, hk0, hkN, hsrc, hdst, hcnt, hm⟩ := hr
  refine ⟨⟨k + 4, by omega, by omega, ?_, ?_, ?_, ?_⟩, ?_⟩
  · simp only [stepFwdWord]; omega
  · simp only [stepFwdWord]; omega
  · simp only [stepFwdWord]; omega
  · simp only [stepFwdWord]
    rw [hm, hsrc, hdst]
    exact copyWord_moved m S D N k hsafe hk0 (by omega)
  · simp only [stepFwdWord]; omega

theorem stepBwdCnt_inv (m : Bytes) (S D N : Int) (hsafe : S ≤ D) (r : Regs)
    (hr : BwdAt m S D N r) (hc : 0 < r.cnt) :
    BwdAt m S D N (stepBwdCnt r) ∧ (stepBwdCnt r).cnt.toNat < r.cnt.toNat := by
  obtain ⟨k, hk0, hkN, hsrc, hdst, hcnt, hm⟩ := hr
  refine ⟨⟨k + 1, by omega, by omega, ?_, ?_, ?_, ?_⟩, ?_⟩
  · simp only [stepBwdCnt]; omega
  · simp only [stepBwdCnt]; omega
  · simp only [stepBwdCnt]; omega
  · simp only [stepBwdCnt]
    rw [hm, hsrc, hdst]
    exact copyByte_movedBack m S D N k hsafe hk0
  · simp only [stepBwdCnt]; omega

theorem stepBwdWord_inv (m : Bytes) (S D N : Int) (hsafe : S ≤ D) (r : Regs)
    (hr : BwdAt m S D N r) (hc : 4 ≤ r.cnt) :
    BwdAt m S D N (stepBwdWord r) ∧ (stepBwdWord r).cnt.toNat < r.cnt.toNat := by
  obtain ⟨k, hk0, hkN, hsrc, hdst, hcnt, hm⟩ := hr
  refine ⟨⟨k + 4, by omega, by omega, ?_, ?_, ?_, ?_⟩, ?_⟩
  · simp only [stepBwdWord]; omega
  · simp only [stepBwdWord]; omega
  · simp only [stepBwdWord]; omega
  · simp only [stepBwdWord]
    rw [hm, hsrc, hdst]
    exact copyWord_movedBack m S D N k hsafe hk0
  · simp only [stepBwdWord]; omega

theorem wordFwd_spec (fuel : Nat) (m : Bytes) (S D N : Int) (hN : 0 ≤ N)
    (hsafe : D ≤ S ∨ S + N ≤ D) (hf : N.toNat < fuel) :
    ∃ r, wordFwd fuel m S D N = some r ∧ r.m = moved m S D N := by
  obtain ⟨r1, h1, i1, -, l1⟩ := whileLoop_inv unaligned stepFwdCnt (FwdAt m S D N)
    (fun r : Regs => r.cnt.toNat)
    (fun r hr hc => stepFwdCnt_inv m S D N hsafe r hr (by
      simp only [unaligned, Bool.and_eq_true, decide_eq_true_eq] at hc
      exact hc.1))
    fuel ⟨m, S, D, N⟩ ⟨0, le_refl _, hN, by simp, by simp, by simp, (moved_zero m S D).symm⟩ hf
  obtain ⟨r2, h2, i2, -, l2⟩ := whileLoop_inv (fun r : Regs => decide (r.cnt ≥ 4)) stepFwdWord
    (FwdAt m S D N) (fun r : Regs => r.cnt.toNat)
    (fun r hr hc => stepFwdWord_inv m S D N hsafe r hr (by simpa using hc))
    fuel r1 i1 (lt_of_le_of_lt l1 hf)
  obtain ⟨r3, h3, ⟨k, hk0, hkN, -, -, hcnt, hm⟩, c3, -⟩ := whileLoop_inv
    (fun r : Regs => decide (r.cnt > 0)) stepFwdCnt (FwdAt m S D N) (fun r : Regs => r.cnt.toNat)
    (fun r hr hc => stepFwdCnt_inv m S D N hsafe r hr (by simpa using hc))
    fuel r2 i2 (lt_of_le_of_lt (le_trans l2 l1) hf)
  refine ⟨r3, ?_, ?_⟩
  · unfold wordFwd
    rw [h1]
    simp only []
    rw [h2]
    exact h3
  · simp only [gt_iff_lt, decide_eq_false_iff_not] at c3
    have : k = N := by omega
    rw [hm, this]

theorem wordBwd_spec (fuel : Nat) (m : Bytes) (S D N : Int) (hN : 0 ≤ N) (hsafe : S ≤ D)
    (hf : N.toNat < fuel) :
    ∃ r, wordBwd fuel m S D N = some r ∧ r.m = moved m S D N := by
  obtain ⟨r1, h1, i1, -, l1⟩ := whileLoop_inv unaligned stepBwdCnt (BwdAt m S D N)
    (fun r : Regs => r.cnt.toNat)
    (fun r hr hc => stepBwdCnt_inv m S D N hsafe r hr (by
      simp only [unaligned, Bool.and_eq_true, decide_eq_true_eq] at hc
      exact hc.1))
    fuel ⟨m, S + N, D + N, N⟩
    ⟨0, le_refl _, hN, by simp, by simp, by simp, (movedBack_zero m S D N).symm⟩ hf
  obtain ⟨r2, h2, i2, -, l2⟩ := whileLoop_inv (fun r : Regs => decide (r.cnt ≥ 4)) stepBwdWord
    (BwdAt m S D N) (fun r : Regs => r.cnt.toNat)
    (fun r hr hc => stepBwdWord_inv m S D N hsafe r hr (by simpa using hc))
    fuel r1 i1 (lt_of_le_of_lt l1 hf)
  obtain ⟨r3, h3, ⟨k, hk0, hkN, -, -, hcnt, hm⟩, c3, -⟩ := whileLoop_inv
    (fun r : Regs => decide (r.cnt > 0)) stepBwdCnt (BwdAt m S D N) (fun r : Regs => r.cnt.toNat)
    (fun r hr hc => stepBwdCnt_inv m S D N hsafe r hr (by simpa using hc))
    fuel r2 i2 (lt_of_le_of_lt (le_trans l2 l1) hf)
  refine ⟨r3, ?_, ?_⟩
  · unfold wordBwd
    rw [h1]
    simp only []
    rw [h2]
    exact h3
  · simp only [gt_iff_lt, decide_eq_false_iff_not] at c3
    have : k = N := by omega
    rw [hm, this, movedBack_full]

/-! ## The direction test -/

theorem forward_safe (S D N : Int) (hN : 0 ≤ N) (h : forward S D N = true) :
    D ≤ S ∨ S + N ≤ D := by
  simp only [forward, ranges_overlap, Bool.or_eq_true, Bool.not_eq_true',
    Bool.and_eq_false_iff, decide_eq_false_iff_not, decide_eq_true_eq] at h
  omega

theorem backward_safe (S D N : Int) (h : forward S D N = false) : S ≤ D := by
  simp only [forward, ranges_overlap, Bool.or_eq_false_iff, Bool.not_eq_false',
    Bool.and_eq_true, decide_eq_true_eq, decide_eq_false_iff_not] at h
  omega

theorem part1_spec (fuel : Nat) (m : Bytes) (S D N : Int) (hN : 0 ≤ N) (hf : N.toNat < fuel) :
    mem_copy_parts fuel m S D N 1 = some (moved m S D N) := by
  unfold mem_copy_parts
  rw [if_neg (by decide), if_pos rfl]
  by_cases h : forward S D N = true
  · rw [if_pos h]
    obtain ⟨r, hr, hm⟩ := copyFwd_spec fuel m S D N hN (forward_safe S D N hN h) hf
    rw [hr, Option.map_some', hm]
  · rw [if_neg h]
    obtain ⟨r, hr, hm⟩ := copyBwd_spec fuel m S D N hN
      (backward_safe S D N (by simpa using h)) hf
    rw [hr, Option.map_some', hm]

theorem part2_spec (fuel : Nat) (m : Bytes) (S D N : Int) (hN : 0 ≤ N) (hf : N.toNat < fuel) :
    mem_copy_parts fuel m S D N 2 = some (moved m S D N) := by
  unfold mem_copy_parts
  rw [if_neg (by decide), if_neg (by decide), if_pos rfl]
  by_cases h : forward S D N = true
  · rw [if_pos h]
    obtain ⟨r, hr, hm⟩ := wordFwd_spec fuel m S D N hN (forward_safe S D N hN h) hf
    rw [hr, Option.map_some', hm]
  · rw [if_neg h]
    obtain ⟨r, hr, hm⟩ := wordBwd_spec fuel m S D N hN
      (backward_safe S D N (by simpa using h)) hf
    rw [hr, Option.map_some', hm]

theorem part0_spec (fuel : Nat) (m : Bytes) (S D N : Int) (hN : 0 ≤ N)
    (hsafe : D ≤ S ∨ S + N ≤ D) (hf : N.toNat < fuel) :
    mem_copy_parts fuel m S D N 0 = some (moved m S D N) := by
  unfold mem_copy_parts
  rw [if_pos rfl]
  obtain ⟨r, hr, hm⟩ := copyFwd_spec fuel m S D N hN hsafe hf
  rw [hr, Option.map_some', hm]


theorem moved_dst (m : Bytes) (S D N k : Int) (hk0 : 0 ≤ k) (hk : k < N) :
    moved m S D N (D + k) = m (S + k) := by
  simp only [moved]
  rw [if_pos (by omega)]
  congr 1
  omega

theorem moved_other (m : Bytes) (S D N x : Int) (hx : ¬ (D ≤ x ∧ x < D + N)) :
    moved m S D N x = m x := by
  simp only [moved]
  rw [if_neg hx]

theorem mem_copy_bytes_code (fuel : Nat) (m : Bytes) (arr arr_end src dst cnt part : Int) :
    (src < arr → mem_copy_bytes fuel m arr arr_end src dst cnt part = some (1, m)) ∧
    (arr ≤ src → arr_end ≤ src + cnt →
      mem_copy_bytes fuel m arr arr_end src dst cnt part = some (2, m)) ∧
    (arr ≤ src → src + cnt < arr_end → dst < arr →
      mem_copy_bytes fuel m arr arr_end src dst cnt part = some (3, m)) ∧
    (arr ≤ src → src + cnt < arr_end → arr ≤ dst → arr_end ≤ dst + cnt →
      mem_copy_bytes fuel m arr arr_end src dst cnt part = some (4, m)) := by
  refine ⟨?_, ?_, ?_, ?_⟩
  · intro h1
    unfold mem_copy_bytes
    simp only []
    rw [if_pos h1]
  · intro h1 h2
    unfold mem_copy_bytes
    simp only []
    rw [if_neg (by omega), if_pos (by omega)]
  · intro h1 h2 h3
    unfold mem_copy_bytes
    simp only []
    rw [if_neg (by omega), if_neg (by omega), if_pos h3]
  · intro h1 h2 h3 h4
    unfold mem_copy_bytes
    simp only []
    rw [if_neg (by omega), if_neg (by omega), if_neg (by omega), if_pos (by omega)]

theorem mem_copy_bytes_five (fuel : Nat) (m : Bytes) (arr arr_end src dst cnt part : Int)
    (h1 : arr ≤ src) (h2 : src + cnt < arr_end) (h3 : arr ≤ dst) (h4 : dst + cnt < arr_end)
    (h5 : (part = 0 ∧ (src ≤ dst ∧ dst < src + cnt)) ∨
      (src ≤ dst + cnt ∧ dst + cnt < src + cnt)) :
    mem_copy_bytes fuel m arr arr_end src dst cnt part = some (5, m) := by
  unfold mem_copy_bytes
  simp only []
  rw [if_neg (by omega), if_neg (by omega), if_neg (by omega), if_neg (by omega), if_pos h5]

/-! ## The claims about the copy -/

/-- C15: Part 1 of `mem_copy_parts` has memmove semantics for any overlap: for
every `src`, `dst` and `cnt ≥ 0` the call returns, every destination byte `k`
then holds the original source byte `k`, and no byte outside the destination
region changes. -/
theorem part1_memmove (fuel : Nat) (m : Bytes) (src dst cnt : Int) (hc : 0 ≤ cnt)
    (hf : cnt.toNat < fuel) :
    ∃ m', mem_copy_parts fuel m src dst cnt 1 = some m' ∧ m' = moved m src dst cnt ∧
      (∀ k, 0 ≤ k → k < cnt → m' (dst + k) = m (src + k)) ∧
      (∀ x, ¬ (dst ≤ x ∧ x < dst + cnt) → m' x = m x) :=
  ⟨moved m src dst cnt, part1_spec fuel m src dst cnt hc hf, rfl,
    fun k hk0 hk => moved_dst m src dst cnt k hk0 hk,
    fun x hx => moved_other m src dst cnt x hx⟩

/-- Witness of C15: 16 bytes from 32 to 40, the destination starting inside
the source. -/
theorem part1_memmove_witness :
    ∃ m', mem_copy_parts 17 initMem 32 40 16 1 = some m' ∧ m' = moved initMem 32 40 16 ∧
      (∀ k, 0 ≤ k → k < 16 → m' (40 + k) = initMem (32 + k)) ∧
      (∀ x, ¬ (40 ≤ x ∧ x < 40 + 16) → m' x = initMem x) :=
  part1_memmove 17 initMem 32 40 16 (by decide) (by decide)

/-- C16: Part 0 of `mem_copy_parts` is a correct copy for non-overlapping
regions: for `cnt ≥ 0` and disjoint regions, after the call `dst[k]` equals the
original `src[k]` for every `k < cnt` and the source region is unchanged. -/
theorem part0_disjoint_copy (fuel : Nat) (m : Bytes) (src dst cnt : Int) (hc : 0 ≤ cnt)
    (hdis : src + cnt ≤ dst ∨ dst + cnt ≤ src) (hf : cnt.toNat < fuel) :
    ∃ m', mem_copy_parts fuel m src dst cnt 0 = some m' ∧
      (∀ k, 0 ≤ k → k < cnt → m' (dst + k) = m (src + k)) ∧
      (∀ k, 0 ≤ k → k < cnt → m' (src + k) = m (src + k)) :=
  ⟨moved m src dst cnt, part0_spec fuel m src dst cnt hc (by omega) hf,
    fun k hk0 hk => moved_dst m src dst cnt k hk0 hk,
    fun k hk0 hk => moved_other m src dst cnt (src + k) (by omega)⟩

/-- Witness of C16: 16 bytes from 32 to 48, the regions touching. -/
theorem part0_disjoint_copy_witness :
    ∃ m', mem_copy_parts 17 initMem 32 48 16 0 = some m' ∧
      (∀ k, 0 ≤ k → k < 16 → m' (48 + k) = initMem (32 + k)) ∧
      (∀ k, 0 ≤ k → k < 16 → m' (32 + k) = initMem (32 + k)) :=
  part0_disjoint_copy 17 initMem 32 48 16 (by decide) (by decide) (by decide)

/-- C17: Part 2 of `mem_copy_parts` leaves exactly the memory that Part 1
leaves, for every `src`, `dst` and `cnt ≥ 0`, whatever the alignments and the
overlap: both return the memory with the destination bytes replaced by the
original source bytes. -/
theorem part2_equals_part1 (fuel : Nat) (m : Bytes) (src dst cnt : Int) (hc : 0 ≤ cnt)
    (hf : cnt.toNat < fuel) :
    mem_copy_parts fuel m src dst cnt 2 = mem_copy_parts fuel m src dst cnt 1 ∧
      mem_copy_parts fuel m src dst cnt 2 = some (moved m src dst cnt) := by
  rw [part2_spec fuel m src dst cnt hc hf, part1_spec fuel m src dst cnt hc hf]
  exact ⟨rfl, rfl⟩

/-- Witness of C17: 16 bytes from 33 to 41, misaligned and overlapping. -/
theorem part2_equals_part1_witness :
    mem_copy_parts 17 initMem 33 41 16 2 = mem_copy_parts 17 initMem 33 41 16 1 ∧
      mem_copy_parts 17 initMem 33 41 16 2 = some (moved initMem 33 41 16) :=
  part2_equals_part1 17 initMem 33 41 16 (by decide) (by decide)

/-- C18, evaluated at a failing input: the call made by `main` for the
arguments `from = 10`, `to = 5`, `cnt = 10` passes the four bounds checks and is
refused with code 5 for every part, 1, 2 and 3 included, the memory being left
as it is: the test of `dst_end` inside the source is not guarded by
`part == 0`. -/
theorem mem_copy_bytes_refuses_any_part (fuel : Nat) (m : Bytes) (mem part : Int) :
    mem_copy_bytes fuel m mem (mem + MEMSIZE_BYTES) (mem + 10) (mem + 5) 10 part =
      some (5, m) := by
  have hM : MEMSIZE_BYTES = 1073741824 := by decide
  exact mem_copy_bytes_five fuel m mem (mem + MEMSIZE_BYTES) (mem + 10) (mem + 5) 10 part
    (by omega) (by omega) (by omega) (by omega) (Or.inr ⟨by omega, by omega⟩)

/-- C19, evaluated at a failing input: for Part 0 the call made by `main` for
the arguments `from = 16`, `to = 8`, `cnt = 8` is refused with code 5 although
the regions `[16, 24)` and `[8, 16)` share no byte and `ranges_overlap` is
false. -/
theorem mem_copy_bytes_refuses_adjacent (fuel : Nat) (m : Bytes) (mem : Int) :
    ranges_overlap (mem + 16) (mem + 8) 8 = false ∧
      ¬ (∃ x : Int, (mem + 16 ≤ x ∧ x < mem + 16 + 8) ∧ (mem + 8 ≤ x ∧ x < mem + 8 + 8)) ∧
      mem_copy_bytes fuel m mem (mem + MEMSIZE_BYTES) (mem + 16) (mem + 8) 8 0 =
        some (5, m) := by
  have hM : MEMSIZE_BYTES = 1073741824 := by decide
  refine ⟨?_, ?_, ?_⟩
  · simp only [ranges_overlap, Bool.and_eq_false_iff, decide_eq_false_iff_not]
    left
    omega
  · rintro ⟨x, h1, h2⟩
    omega
  · exact mem_copy_bytes_five fuel m mem (mem + MEMSIZE_BYTES) (mem + 16) (mem + 8) 8 0
      (by omega) (by omega) (by omega) (by omega) (Or.inr ⟨by omega, by omega⟩)

/-- C20: `mem_copy_bytes` reports the first violated bound in a fixed order: 1
if `src < arr`, otherwise 2 if `src + cnt ≥ arr_end`, otherwise 3 if
`dst < arr`, otherwise 4 if `dst + cnt ≥ arr_end`.  A copy is performed (code 0)
only when `arr ≤ src`, `src + cnt < arr_end`, `arr ≤ dst` and
`dst + cnt < arr_end`; a region ending exactly at `arr_end` is rejected; and a
call that returns another code leaves the memory as it is. -/
theorem mem_copy_bytes_bounds (fuel : Nat) (m : Bytes) (arr arr_end src dst cnt part : Int) :
    (src < arr → mem_copy_bytes fuel m arr arr_end src dst cnt part = some (1, m)) ∧
    (arr ≤ src → arr_end ≤ src + cnt →
      mem_copy_bytes fuel m arr arr_end src dst cnt part = some (2, m)) ∧
    (arr ≤ src → src + cnt < arr_end → dst < arr →
      mem_copy_bytes fuel m arr arr_end src dst cnt part = some (3, m)) ∧
    (arr ≤ src → src + cnt < arr_end → arr ≤ dst → arr_end ≤ dst + cnt →
      mem_copy_bytes fuel m arr arr_end src dst cnt part = some (4, m)) ∧
    (arr ≤ src → src + cnt = arr_end →
      mem_copy_bytes fuel m arr arr_end src dst cnt part = some (2, m)) ∧
    (∀ r, mem_copy_bytes fuel m arr arr_end src dst cnt part = some r → r.1 = 0 →
      arr ≤ src ∧ src + cnt < arr_end ∧ arr ≤ dst ∧ dst + cnt < arr_end ∧
        mem_copy_parts fuel m src dst cnt part = some r.2) ∧
    (∀ r, mem_copy_bytes fuel m arr arr_end src dst cnt part = some r → r.1 ≠ 0 →
      r.2 = m) := by
  obtain ⟨c1, c2, c3, c4⟩ := mem_copy_bytes_code fuel m arr arr_end src dst cnt part
  refine ⟨c1, c2, c3, c4, fun h1 h2 => c2 h1 (by omega), ?_, ?_⟩
  · intro r hr h0
    by_cases h1 : src < arr
    · rw [c1 h1] at hr
      rw [← Option.some.inj hr] at h0
      exact absurd h0 (by simp)
    · by_cases h2 : arr_end ≤ src + cnt
      · rw [c2 (by omega) h2] at hr
        rw [← Option.some.inj hr] at h0
        exact absurd h0 (by simp)
      · by_cases h3 : dst < arr
        · rw [c3 (by omega) (by omega) h3] at hr
          rw [← Option.some.inj hr] at h0
          exact absurd h0 (by simp)
        · by_cases h4 : arr_end ≤ dst + cnt
          · rw [c4 (by omega) (by omega) (by omega) h4] at hr
            rw [← Option.some.inj hr] at h0
            exact absurd h0 (by simp)
          · refine ⟨by omega, by omega, by omega, by omega, ?_⟩
            unfold mem_copy_bytes at hr
            simp only [] at hr
            rw [if_neg h1, if_neg (by omega), if_neg h3, if_neg (by omega)] at hr
            split_ifs at hr with h5
            · rw [← Option.some.inj hr] at h0
              exact absurd h0 (by simp)
            · cases hp : mem_copy_parts fuel m src dst cnt part with
              | none => rw [hp] at hr; exact Option.noConfusion hr
              | some m' =>
                rw [hp] at hr
                rw [← Option.some.inj hr]
  · intro r hr hne
    unfold mem_copy_bytes at hr
    simp only [] at hr
    split_ifs at hr with h1 h2 h3 h4 h5
    · rw [← Option.some.inj hr]
    · rw [← Option.some.inj hr]
    · rw [← Option.some.inj hr]
    · rw [← Option.some.inj hr]
    · rw [← Option.some.inj hr]
    · cases hp : mem_copy_parts fuel m src dst cnt part with
      | none => rw [hp] at hr; exact Option.noConfusion hr
      | some m' =>
        rw [hp] at hr
        rw [← Option.some.inj hr] at hne
        exact absurd rfl hne

/-- Witness of C20: the array `[10, 100)`; a source below the array, a source
ending exactly at `arr_end`, a destination below the array, a destination
ending exactly at `arr_end`, and a copy that is performed. -/
theorem mem_copy_bytes_bounds_witness :
    mem_copy_bytes 5 initMem 10 100 5 20 4 1 = some (1, initMem) ∧
      mem_copy_bytes 5 initMem 10 100 96 20 4 1 = some (2, initMem) ∧
      mem_copy_bytes 5 initMem 10 100 20 5 4 1 = some (3, initMem) ∧
      mem_copy_bytes 5 initMem 10 100 20 96 4 1 = some (4, initMem) ∧
      ((10 : Int) ≤ 20 ∧ (20 : Int) + 4 < 100 ∧ (10 : Int) ≤ 40 ∧ (40 : Int) + 4 < 100 ∧
        mem_copy_parts 5 initMem 20 40 4 1 = some (moved initMem 20 40 4)) :=
  have h := mem_copy_bytes_bounds 5 initMem 10 100
  ⟨(h 5 20 4 1).1 (by decide), (h 96 20 4 1).2.2.2.2.1 (by decide) (by decide),
    (h 20 5 4 1).2.2.1 (by decide) (by decide) (by decide),
    (h 20 96 4 1).2.2.2.1 (by decide) (by decide) (by decide) (by decide),
    (h 20 40 4 1).2.2.2.2.2.1 (0, moved initMem 20 40 4)
      (by
        have hp := part1_spec 5 initMem 20 40 4 (by decide) (by decide)
        unfold mem_copy_bytes
        simp only []
        rw [if_neg (by decide), if_neg (by decide), if_neg (by decide), if_neg (by decide),
          if_neg (by decide), hp])
      rfl⟩

end MemCopy
